import Mathlib

set_option maxHeartbeats 2000000
set_option maxRecDepth 8192

/-!
# A shallow embedding of the s3-balance placement engine

This file embeds, in Lean, the parts of the `DullJZ/s3-balance` Go gateway
that its specification makes claims about: the load balancer and its four
placement strategies (`internal/balancer`), the consistent-hash ring and its
MD5-based point hash, the `DELETE /api/v1/objects/{key}` handler
(`internal/api/handler.go`), the hot-reload configuration manager's
`GetConfig` (`internal/config`), and the Basic-Auth middleware
(`internal/middleware`).

Modelling conventions:
* Go `int`/`int64` values are modelled as `Int`; the round-robin strategy's
  `uint64` counter is a `Nat` reduced modulo `2 ^ 64` exactly where
  `atomic.AddUint64` wraps.
* `rand.Intn(n)` is modelled by an explicit draw passed to the caller, with
  the bound `0 ≤ r < n` (the contract of `rand.Intn`) appearing as a
  hypothesis of the theorems; `rand.Intn(n)` panics for `n ≤ 0`, which is
  modelled by an explicit error value.
* `sort.Slice` is an unstable sort: its contract is "some permutation of the
  input that is sorted for the supplied comparator".  For the least-space
  strategy, which sorts distinct buckets by a non-injective key, the
  permutation actually produced is observable, so that strategy is embedded
  as a relation over all contract-compliant outcomes.  For the ring's node
  slice the elements are plain numbers, every sorted permutation is the same
  list, and the sort is embedded as the (unique) sorting function.
* Go maps with overwrite-on-assignment are modelled as association lists in
  reverse chronological order, looked up with `List.find?` (first match =
  latest write).
-/

/-- Go struct `config.BucketConfig` — the fields read by the balancer,
handlers and configuration manager. -/
structure BucketConfig where
  name : String
  endpoint : String := ""
  weight : Int := 0
  maxSizeBytes : Int := 0
  enabled : Bool := true
  deriving Repr, DecidableEq, Inhabited

/-- Go struct `bucket.BucketInfo` — the mutable runtime record owned by the
registry; only the fields the embedded code reads are carried. -/
structure BucketInfo where
  config : BucketConfig
  usedSize : Int := 0
  available : Bool := true
  deriving Repr, DecidableEq, Inhabited

/-- Modelled from the spec: `bucket.BucketInfo.GetAvailableSpace` is part of
the `internal/bucket` package, which is not among the available sources; the
spec (§4.2) defines a bucket's free space as `max_size_bytes - used_size`,
which is also how the handlers display `available_space`. -/
def BucketInfo.GetAvailableSpace (b : BucketInfo) : Int :=
  b.config.maxSizeBytes - b.usedSize

/-- The error outcomes of `Balancer.SelectBucket` and of the strategies.
`noAvailableBuckets` is the spec's `NoAvailableBackend`
(Go: `"no available buckets"`); `insufficientSpace` is the spec's
`InsufficientCapacity`, carrying the requested size
(Go: `"no bucket has enough space for %d bytes"`); `strategyNoBuckets` is the
strategies' own `"no buckets available"` guard; `randPanic` marks the Go
runtime panic of `rand.Intn(n)` with `n ≤ 0`; `panicIndex` marks an
out-of-range slice index panic. -/
inductive SelectError where
  | noAvailableBuckets
  | insufficientSpace (size : Int)
  | strategyNoBuckets
  | randPanic
  | panicIndex
  deriving Repr, DecidableEq

/-- `2 ^ 64`, the modulus of Go's `uint64` arithmetic. -/
def uint64Mod : Nat := 2 ^ 64

/-- Go `RoundRobinStrategy.SelectBucket`: atomically increment the `uint64`
counter (wrapping at `2 ^ 64`), then index `counter mod n` into the slice.
Returns the selected bucket together with the new counter value. -/
def RoundRobinStrategy.SelectBucket (counter : Nat) (buckets : List BucketInfo) :
    Except SelectError (BucketInfo × Nat) :=
  if buckets.isEmpty then .error .strategyNoBuckets
  else
    let c := (counter + 1) % uint64Mod
    .ok (buckets.getD (c % buckets.length) default, c)

/-- `totalWeight` as computed by Go `WeightedStrategy.SelectBucket`:
the sum of `b.Config.Weight` over the slice. -/
def totalWeight (buckets : List BucketInfo) : Int :=
  (buckets.map (fun b => b.config.weight)).sum

/-- The accumulation loop of Go `WeightedStrategy.SelectBucket`: walk the
slice adding weights to `currentWeight` and return the first bucket for which
`randomWeight < currentWeight`; `none` when the loop falls through. -/
def weightedWalk (r : Int) (cur : Int) : List BucketInfo → Option BucketInfo
  | [] => none
  | b :: rest =>
      let cur2 := cur + b.config.weight
      if r < cur2 then some b else weightedWalk r cur2 rest

/-- Go `WeightedStrategy.SelectBucket`.  `r` is the value drawn by the single
`rand.Intn` call executed on the taken branch (`rand.Intn(len(buckets))` when
the total weight is zero, `rand.Intn(totalWeight)` otherwise); theorems carry
the `rand.Intn` contract `0 ≤ r < bound` as a hypothesis.  A negative total
weight would make `rand.Intn` panic, modelled by `.error .randPanic`. -/
def WeightedStrategy.SelectBucket (r : Int) (buckets : List BucketInfo) :
    Except SelectError BucketInfo :=
  match buckets with
  | [] => .error .strategyNoBuckets
  | b0 :: rest =>
    let W := totalWeight (b0 :: rest)
    if W = 0 then
      .ok ((b0 :: rest).getD r.toNat default)
    else if W < 0 then .error .randPanic
    else
      match weightedWalk r 0 (b0 :: rest) with
      | some b => .ok b
      | none => .ok ((b0 :: rest).getLast (List.cons_ne_nil b0 rest))

/-- The comparator closure Go passes to `sort.Slice` in
`LeastSpaceStrategy.SelectBucket`:
`buckets[i].GetAvailableSpace() > buckets[j].GetAvailableSpace()`. -/
def moreSpace (a b : BucketInfo) : Prop :=
  b.GetAvailableSpace < a.GetAvailableSpace

instance : DecidableRel moreSpace := fun a b =>
  inferInstanceAs (Decidable (b.GetAvailableSpace < a.GetAvailableSpace))

/-- The contract of Go's `sort.Slice` for the least-space comparator: the
result is a permutation of the input that is sorted for the comparator
(no element is strictly "more-space" than an element before it).
`sort.Slice` is documented to be unstable, so among tied buckets no
particular permutation is promised; the embedding therefore keeps every
contract-compliant outcome. -/
def IsSortSliceResult (l sorted : List BucketInfo) : Prop :=
  sorted.Perm l ∧ sorted.Pairwise (fun a b => ¬ moreSpace b a)

/-- Go `LeastSpaceStrategy.SelectBucket` as a relation over the admissible
outcomes: sort the slice by available space, descending, with `sort.Slice`,
and return the first element. -/
def LeastSpaceStrategy.Selects (buckets : List BucketInfo)
    (out : Except SelectError BucketInfo) : Prop :=
  match buckets with
  | [] => out = .error .strategyNoBuckets
  | _ :: _ => ∃ (s : List BucketInfo) (h : s ≠ []),
      IsSortSliceResult buckets s ∧ out = .ok (s.head h)

/-! ## MD5 (crypto/md5) and the ring point hash

`ConsistentHashStrategy.hash` computes `md5.Sum([]byte(key))` and reads the
first four digest bytes big-endian.  MD5 is implemented here from RFC 1321
over byte lists; Go strings are UTF-8 encoded byte strings. -/

/-- UTF-8 encoding of a Unicode code point (what casting a Go `string` to
`[]byte` yields per character). -/
def utf8EncodeCodePoint (c : Nat) : List Nat :=
  if c < 0x80 then [c]
  else if c < 0x800 then [0xC0 + c / 64, 0x80 + c % 64]
  else if c < 0x10000 then [0xE0 + c / 4096, 0x80 + c / 64 % 64, 0x80 + c % 64]
  else [0xF0 + c / 262144, 0x80 + c / 4096 % 64, 0x80 + c / 64 % 64, 0x80 + c % 64]

/-- The bytes of a Go string (UTF-8). -/
def strBytes (s : String) : List Nat :=
  (s.data.map (fun c => utf8EncodeCodePoint c.toNat)).flatten

/-- Bitwise complement within 32 bits (for values `< 2 ^ 32`). -/
def not32 (x : Nat) : Nat := 2 ^ 32 - 1 - x

/-- 32-bit left rotation (for values `< 2 ^ 32`). -/
def rotl32 (x s : Nat) : Nat := (x * 2 ^ s + x / 2 ^ (32 - s)) % 2 ^ 32

/-- The 64 sine-derived constants `T[i] = floor(2^32 * abs(sin(i+1)))` of
MD5 (RFC 1321). -/
def md5K : List Nat :=
  [0xd76aa478, 0xe8c7b756, 0x242070db, 0xc1bdceee,
   0xf57c0faf, 0x4787c62a, 0xa8304613, 0xfd469501,
   0x698098d8, 0x8b44f7af, 0xffff5bb1, 0x895cd7be,
   0x6b901122, 0xfd987193, 0xa679438e, 0x49b40821,
   0xf61e2562, 0xc040b340, 0x265e5a51, 0xe9b6c7aa,
   0xd62f105d, 0x02441453, 0xd8a1e681, 0xe7d3fbc8,
   0x21e1cde6, 0xc33707d6, 0xf4d50d87, 0x455a14ed,
   0xa9e3e905, 0xfcefa3f8, 0x676f02d9, 0x8d2a4c8a,
   0xfffa3942, 0x8771f681, 0x6d9d6122, 0xfde5380c,
   0xa4beea44, 0x4bdecfa9, 0xf6bb4b60, 0xbebfbc70,
   0x289b7ec6, 0xeaa127fa, 0xd4ef3085, 0x04881d05,
   0xd9d4d039, 0xe6db99e5, 0x1fa27cf8, 0xc4ac5665,
   0xf4292244, 0x432aff97, 0xab9423a7, 0xfc93a039,
   0x655b59c3, 0x8f0ccc92, 0xffeff47d, 0x85845dd1,
   0x6fa87e4f, 0xfe2ce6e0, 0xa3014314, 0x4e0811a1,
   0xf7537e82, 0xbd3af235, 0x2ad7d2bb, 0xeb86d391]

/-- The per-step left-rotation amounts of MD5 (RFC 1321). -/
def md5S : List Nat :=
  [7, 12, 17, 22, 7, 12, 17, 22, 7, 12, 17, 22, 7, 12, 17, 22,
   5, 9, 14, 20, 5, 9, 14, 20, 5, 9, 14, 20, 5, 9, 14, 20,
   4, 11, 16, 23, 4, 11, 16, 23, 4, 11, 16, 23, 4, 11, 16, 23,
   6, 10, 15, 21, 6, 10, 15, 21, 6, 10, 15, 21, 6, 10, 15, 21]

/-- The MD5 round functions F, G, H, I selected by step index. -/
def md5F (i b c d : Nat) : Nat :=
  if i < 16 then (b &&& c) ||| (not32 b &&& d)
  else if i < 32 then (d &&& b) ||| (not32 d &&& c)
  else if i < 48 then b ^^^ c ^^^ d
  else c ^^^ (b ||| not32 d)

/-- The message-word index used at step `i` of MD5. -/
def md5G (i : Nat) : Nat :=
  if i < 16 then i
  else if i < 32 then (5 * i + 1) % 16
  else if i < 48 then (3 * i + 5) % 16
  else (7 * i) % 16

/-- One MD5 step: rotate the four-word state. -/
def md5Step (words : List Nat) (st : Nat × Nat × Nat × Nat) (i : Nat) :
    Nat × Nat × Nat × Nat :=
  let (a, b, c, d) := st
  let f := (md5F i b c d + a + md5K.getD i 0 + words.getD (md5G i) 0) % 2 ^ 32
  (d, (b + rotl32 f (md5S.getD i 0)) % 2 ^ 32, b, c)

/-- Decode one 64-byte block into sixteen little-endian 32-bit words. -/
def md5Words (block : List Nat) : List Nat :=
  (List.range 16).map (fun j =>
    block.getD (4 * j) 0 + block.getD (4 * j + 1) 0 * 2 ^ 8 +
    block.getD (4 * j + 2) 0 * 2 ^ 16 + block.getD (4 * j + 3) 0 * 2 ^ 24)

/-- Process one 64-byte block of MD5. -/
def md5Block (st : Nat × Nat × Nat × Nat) (block : List Nat) :
    Nat × Nat × Nat × Nat :=
  let words := md5Words block
  let (a, b, c, d) := (List.range 64).foldl (md5Step words) st
  ((st.1 + a) % 2 ^ 32, (st.2.1 + b) % 2 ^ 32,
   (st.2.2.1 + c) % 2 ^ 32, (st.2.2.2 + d) % 2 ^ 32)

/-- MD5 padding: a `0x80` byte, zero bytes to 56 mod 64, then the bit length
as a little-endian 64-bit quantity. -/
def md5Pad (msg : List Nat) : List Nat :=
  let n := msg.length
  let zeros := (56 + 64 - (n + 1) % 64) % 64
  msg ++ [0x80] ++ List.replicate zeros 0 ++
    (List.range 8).map (fun i => 8 * n / 2 ^ (8 * i) % 2 ^ 8)

/-- Split a byte list into 64-byte chunks (fuel-structured so that the
kernel can evaluate it; the fuel is always sufficient at `l.length`). -/
def md5ChunksF : Nat → List Nat → List (List Nat)
  | 0, _ => []
  | _, [] => []
  | fuel + 1, l => l.take 64 :: md5ChunksF fuel (l.drop 64)

/-- The 16-byte MD5 digest of a byte list (little-endian serialisation of
the final four-word state, per RFC 1321). -/
def md5 (msg : List Nat) : List Nat :=
  let padded := md5Pad msg
  let (a, b, c, d) := (md5ChunksF padded.length padded).foldl md5Block
    (0x67452301, 0xefcdab89, 0x98badcfe, 0x10325476)
  ([a, b, c, d].map (fun w => (List.range 4).map (fun i => w / 2 ^ (8 * i) % 2 ^ 8))).flatten

/-- Go `ConsistentHashStrategy.hash`: `binary.BigEndian.Uint32` of the first
four bytes of `md5.Sum([]byte(key))`. -/
def ConsistentHashStrategy.hash (key : String) : Nat :=
  let h := md5 (strBytes key)
  h.getD 0 0 * 2 ^ 24 + h.getD 1 0 * 2 ^ 16 + h.getD 2 0 * 2 ^ 8 + h.getD 3 0

/-! ## The consistent-hash strategy -/

/-- Go struct `ConsistentHashStrategy`: virtual-node count, the
`map[uint32]*bucket.BucketInfo` ring (association list, newest binding
first) and the sorted `[]uint32` node slice. -/
structure ConsistentHashStrategy where
  replicas : Nat
  ring : List (Nat × BucketInfo)
  nodes : List Nat
  deriving Repr, DecidableEq, Inhabited

/-- Go `NewConsistentHashStrategy`: 100 virtual nodes per bucket, empty
ring. -/
def NewConsistentHashStrategy : ConsistentHashStrategy :=
  { replicas := 100, ring := [], nodes := [] }

/-- The virtual key `fmt.Sprintf("%s-%d", name, i)`. -/
def virtualKey (name : String) (i : Nat) : String :=
  name ++ "-" ++ toString i

/-- The `replicas` ring points contributed by one bucket name, in the order
`i = 0, …, replicas-1` of the Go loop. -/
def bucketNodeHashes (replicas : Nat) (name : String) : List Nat :=
  (List.range replicas).map (fun i => ConsistentHashStrategy.hash (virtualKey name i))

/-- The unsorted node slice built by `updateRing`'s nested loops
(`append` in chronological order). -/
def buildNodes (replicas : Nat) : List BucketInfo → List Nat
  | [] => []
  | b :: rest => bucketNodeHashes replicas b.config.name ++ buildNodes replicas rest

/-- The ring map built by `updateRing`'s nested loops.  Assignments to a Go
map overwrite, and a lookup observes the latest assignment; the association
list is therefore kept in reverse chronological order (buckets later in the
slice, and larger `i` within one bucket, come first) and queried with
`List.find?`. -/
def buildRing (replicas : Nat) : List BucketInfo → List (Nat × BucketInfo)
  | [] => []
  | b :: rest => buildRing replicas rest ++
      ((bucketNodeHashes replicas b.config.name).reverse.map (fun h => (h, b)))

/-- Go `ConsistentHashStrategy.updateRing`: clear the ring, insert
`replicas` virtual nodes per bucket, sort the node slice ascending with
`sort.Slice`.  On a slice of plain numbers every sorted permutation is the
same list, so the sort is the (unique) sorting function, here
`List.insertionSort (· ≤ ·)`. -/
def ConsistentHashStrategy.updateRing (s : ConsistentHashStrategy)
    (buckets : List BucketInfo) : ConsistentHashStrategy :=
  { s with ring := buildRing s.replicas buckets,
           nodes := List.insertionSort (· ≤ ·) (buildNodes s.replicas buckets) }

/-- Go map lookup `s.ring[h]`. -/
def ringFind (ring : List (Nat × BucketInfo)) (h : Nat) : Option BucketInfo :=
  (ring.find? (fun p => p.1 == h)).map (fun p => p.2)

/-- Go `ConsistentHashStrategy.SelectBucket`: rebuild the ring from the
slice, hash the key, `sort.Search` for the first node `≥ hash` (wrapping to
index 0), and return the bucket the ring maps that node to.  On a sorted
slice `sort.Search` with the predicate `nodes[i] >= hash` returns the first
index whose value satisfies it, i.e. the first such element. -/
def ConsistentHashStrategy.SelectBucket (s : ConsistentHashStrategy)
    (buckets : List BucketInfo) (key : String) :
    Except SelectError (BucketInfo × ConsistentHashStrategy) :=
  if buckets.isEmpty then .error .strategyNoBuckets
  else
    let s2 := s.updateRing buckets
    let h := ConsistentHashStrategy.hash key
    match s2.nodes.find? (fun x => h ≤ x), s2.nodes with
    | some v, _ => match ringFind s2.ring v with
                   | some b => .ok (b, s2)
                   | none => .error .panicIndex
    | none, v :: _ => match ringFind s2.ring v with
                      | some b => .ok (b, s2)
                      | none => .error .panicIndex
    | none, [] => .error .panicIndex

/-! ## `Balancer.SelectBucket` -/

/-- The state of the balancer's active strategy.  The weighted strategy
carries the pending `rand.Intn` draw for the next call; the other
constructors carry the strategy struct's mutable state. -/
inductive StrategyState where
  | roundRobin (counter : Nat)
  | leastSpace
  | weighted (r : Int)
  | consistentHash (s : ConsistentHashStrategy)
  deriving Repr, DecidableEq

/-- The filter stage of Go `Balancer.SelectBucket`: retain the buckets with
`GetAvailableSpace() >= size`. -/
def eligibleBuckets (buckets : List BucketInfo) (size : Int) : List BucketInfo :=
  buckets.filter (fun b => size ≤ b.GetAvailableSpace)

/-- Dispatch of `b.strategy.SelectBucket(availableBuckets, key, size)` as a
relation over admissible outcomes (only the least-space strategy is
genuinely relational; the others are the graphs of the functions above). -/
def StrategySelects (st : StrategyState) (buckets : List BucketInfo)
    (key : String) (size : Int)
    (out : Except SelectError (BucketInfo × StrategyState)) : Prop :=
  match st with
  | .roundRobin c =>
      out = (RoundRobinStrategy.SelectBucket c buckets).map
        (fun p => (p.1, .roundRobin p.2))
  | .leastSpace =>
      ∃ res, LeastSpaceStrategy.Selects buckets res ∧
        out = res.map (fun b => (b, .leastSpace))
  | .weighted r =>
      out = (WeightedStrategy.SelectBucket r buckets).map
        (fun b => (b, .weighted r))
  | .consistentHash s =>
      out = (ConsistentHashStrategy.SelectBucket s buckets key).map
        (fun p => (p.1, .consistentHash p.2))

/-- Go `Balancer.SelectBucket`: take the registry's available buckets, fail
with `NoAvailableBackend` when there are none, filter by free space, fail
with `InsufficientCapacity` when the filter empties the list, otherwise
apply the strategy to the filtered slice (its error, if any, is returned
unchanged).  `buckets` is the list `manager.GetAvailableBuckets()`
returned by the registry. -/
def Balancer.Selects (st : StrategyState) (buckets : List BucketInfo)
    (key : String) (size : Int)
    (out : Except SelectError (BucketInfo × StrategyState)) : Prop :=
  if buckets.isEmpty then out = .error .noAvailableBuckets
  else
    let av := eligibleBuckets buckets size
    if av.isEmpty then out = .error (.insufficientSpace size)
    else StrategySelects st av key size out

/-- The contract of the `rand.Intn` draw consumed by a weighted-strategy
call on the (filtered) list `av`: the draw is non-negative and bounded by
`len(av)` when the total weight is zero, and by the total weight otherwise.
Other strategies draw nothing. -/
def RandContract (st : StrategyState) (av : List BucketInfo) : Prop :=
  match st with
  | .weighted r => 0 ≤ r ∧
      (totalWeight av = 0 → r < (av.length : Int)) ∧
      (0 < totalWeight av → r < totalWeight av)
  | _ => True

/-- Well-formedness of a strategy state: a consistent-hash state has a
positive virtual-node count (as every state reachable from
`NewConsistentHashStrategy` does — `replicas` is set to 100 once and never
written again). -/
def StrategyWF (st : StrategyState) : Prop :=
  match st with
  | .consistentHash s => 0 < s.replicas
  | _ => True

/-! ## The object-metadata DELETE handler (`internal/api/handler.go`) -/

/-- A placement record as surfaced by `storage.Service.GetObjectInfo`
(the fields `handleDeleteObject` reads). -/
structure ObjectInfo where
  bucketName : String
  size : Int := 0
  deriving Repr, DecidableEq, Inhabited

/-- Modelled from the spec: the placement metadata store
(`storage.Service`, §4.4) is not among the available sources.  It is a
durable key → record mapping, modelled as an association list with unique
keys. -/
abbrev StorageDB := List (String × ObjectInfo)

/-- Modelled from the spec: `storage.Service.GetObjectInfo` —
`get_info(key) → PlacementRecord`, failing `NotFound` (here `none`) when
the key is absent. -/
def StorageDB.getObjectInfo (db : StorageDB) (key : String) : Option ObjectInfo :=
  (db.find? (fun p => p.1 == key)).map (fun p => p.2)

/-- Modelled from the spec: `storage.Service.DeleteObject` —
`delete(key)`, which the spec specifies as idempotent: it removes the
record when present and succeeds without error either way. -/
def StorageDB.deleteObject (db : StorageDB) (key : String) : StorageDB :=
  db.filter (fun p => ¬ p.1 == key)

/-- Modelled from the spec: `bucket.Manager.GetBucket` followed by
`BucketInfo.UpdateUsedSize(delta)` — an atomic add to the named bucket's
`used_size` (registry names are unique); a missing name is a no-op, as in
the handler's `if bucket, ok := ...; ok` guard. -/
def updateUsedSize (buckets : List BucketInfo) (name : String) (delta : Int) :
    List BucketInfo :=
  buckets.map (fun b =>
    if b.config.name == name then { b with usedSize := b.usedSize + delta } else b)

/-- The state the DELETE handler touches: the placement store and the
bucket registry. -/
structure ApiState where
  db : StorageDB
  buckets : List BucketInfo

/-- Go `Handler.handleDeleteObject`: look the key up in the placement
store — replying `404 "object not found"` when it is absent — then
subtract the recorded size from the owning bucket's usage, delete the
metadata record, and reply `200`.  The result is the HTTP status code and
the updated state.  (The handler's `500` branch for a failing store delete
is unreachable here because the spec-modelled `delete` is total.) -/
def handleDeleteObject (st : ApiState) (key : String) : Nat × ApiState :=
  match st.db.getObjectInfo key with
  | none => (404, st)
  | some info =>
      let buckets := updateUsedSize st.buckets info.bucketName (-info.size)
      (200, { db := st.db.deleteObject key, buckets := buckets })

/-! ## The hot-reload configuration manager (`internal/config`)

`Manager.GetConfig` executes `configCopy := *m.config; return &configCopy`:
a Go struct assignment, which copies every top-level field.  `Config`
contains the slice field `Buckets []BucketConfig` (a slice header), so the
copy shares the slice's backing array with the live configuration.  To make
that sharing expressible, slice backing arrays live in an explicit heap and
a `Config` value holds a reference into it. -/

/-- The heap of slice backing arrays; a reference is an index. -/
structure ConfigHeap where
  arrays : List (List BucketConfig)
  deriving Repr, DecidableEq

/-- Go struct `config.Config` — the fields the manager's change log reads,
with the `Buckets` slice as a heap reference. -/
structure Config where
  serverPort : Int
  databaseDSN : String
  bucketsRef : Nat
  balancerStrategy : String
  s3apiProxyMode : Bool
  metricsEnabled : Bool
  deriving Repr, DecidableEq

/-- Reading a slice through its reference. -/
def ConfigHeap.read (h : ConfigHeap) (r : Nat) : List BucketConfig :=
  h.arrays.getD r []

/-- Writing element `i` of a slice through its reference (what a caller
does when it mutates `cfg.Buckets[i]`). -/
def ConfigHeap.write (h : ConfigHeap) (r i : Nat) (v : BucketConfig) : ConfigHeap :=
  { arrays := h.arrays.set r ((h.arrays.getD r []).set i v) }

/-- Go struct `config.Manager` (the fields `GetConfig` touches): the
current snapshot pointer, plus the heap the snapshot's slices live in. -/
structure ConfigManager where
  heap : ConfigHeap
  config : Config
  deriving Repr, DecidableEq

/-- Go `Manager.GetConfig`: `configCopy := *m.config; return &configCopy` —
a shallow struct copy.  Every top-level field, including the `Buckets`
slice header (the heap reference), is copied by value. -/
def ConfigManager.GetConfig (m : ConfigManager) : Config :=
  m.config

/-! ## The Basic-Auth middleware (`internal/middleware`) -/

/-- Go struct `middleware.AuthConfig`: nilable `Required` and
`Credentials` callbacks, modelled by their (pure) results; `OnError` only
shapes the error body and is irrelevant to which outcome is taken. -/
structure AuthConfig where
  required : Option Bool
  credentials : Option (List Nat × List Nat)

/-- The observable outcome of one request through the middleware: either
the inner handler is invoked (with the request unchanged — the middleware
never rewrites it), or an error response with the given code is written
and the inner handler is never called. -/
inductive AuthOutcome where
  | next
  | denied (code : String)
  deriving Repr, DecidableEq

/-- The bytes of `"Basic "`. -/
def basicMarker : List Nat := strBytes "Basic "

/-- Go `base64.StdEncoding` alphabet value of one byte. -/
def b64Val (c : Nat) : Option Nat :=
  if 65 ≤ c ∧ c ≤ 90 then some (c - 65)
  else if 97 ≤ c ∧ c ≤ 122 then some (c - 71)
  else if 48 ≤ c ∧ c ≤ 57 then some (c + 4)
  else if c = 43 then some 62
  else if c = 47 then some 63
  else none

/-- Go `base64.StdEncoding.DecodeString` on newline-stripped input: four
characters at a time; `=` padding only in the last quad (one `=` after
three data characters, or two after two); any other shape, any byte outside
the alphabet, or a length not a multiple of four is a `CorruptInputError`.
The default (non-strict) decoder discards unused trailing bits. -/
def b64DecodeQuads : List Nat → Option (List Nat)
  | [] => some []
  | c1 :: c2 :: c3 :: c4 :: rest =>
    match b64Val c1, b64Val c2 with
    | some v1, some v2 =>
      if c3 = 61 then
        if c4 = 61 ∧ rest = [] then some [v1 * 4 + v2 / 16]
        else none
      else
        match b64Val c3 with
        | some v3 =>
          if c4 = 61 then
            if rest = [] then some [v1 * 4 + v2 / 16, v2 % 16 * 16 + v3 / 4]
            else none
          else
            match b64Val c4, b64DecodeQuads rest with
            | some v4, some ds =>
                some ((v1 * 4 + v2 / 16) :: (v2 % 16 * 16 + v3 / 4) :: (v3 % 4 * 64 + v4) :: ds)
            | _, _ => none
        | none => none
    | _, _ => none
  | _ => none

/-- Go `base64.StdEncoding.DecodeString`: the decoder ignores `\r` and `\n`
anywhere in its input, then decodes quad-wise. -/
def b64Decode (payload : List Nat) : Option (List Nat) :=
  b64DecodeQuads (payload.filter (fun c => ¬ (c = 13 ∨ c = 10)))

/-- Go `strings.SplitN(s, ":", 2)` viewed through the middleware's use:
`none` when there is no colon (one part), otherwise the bytes before the
first colon and everything after it. -/
def splitFirstColon : List Nat → Option (List Nat × List Nat)
  | [] => none
  | c :: rest =>
      if c = 58 then some ([], rest)
      else (splitFirstColon rest).map (fun p => (c :: p.1, p.2))

/-- The access key the middleware compares against: `cfg.Credentials()`
when the callback is non-nil, otherwise the empty string. -/
def AuthConfig.accessKey (cfg : AuthConfig) : List Nat :=
  (cfg.credentials.getD ([], [])).1

/-- The secret key the middleware compares against. -/
def AuthConfig.secretKey (cfg : AuthConfig) : List Nat :=
  (cfg.credentials.getD ([], [])).2

/-- Go `middleware.BasicAuth` applied to one request whose
`Authorization` header holds the byte string `authHeader`: when
`cfg.Required` is nil or reports false the request is forwarded untouched;
otherwise the header must be `"Basic "` + base64, the decoded payload must
split on its first `:`, and the two parts must equal the configured keys,
else an error response (`requireAuth` or `invokeOnError`) is written and
the inner handler is never reached. -/
def BasicAuth (cfg : AuthConfig) (authHeader : List Nat) : AuthOutcome :=
  if (cfg.required.getD false) = false then .next
  else if ¬ (basicMarker.isPrefixOf authHeader) then .denied "AccessDenied"
  else
    match b64Decode (authHeader.drop basicMarker.length) with
    | none => .denied "AccessDenied"
    | some decoded =>
        match splitFirstColon decoded with
        | none => .denied "AccessDenied"
        | some (user, pass) =>
            if user ≠ cfg.accessKey then .denied "InvalidAccessKeyId"
            else if pass ≠ cfg.secretKey then .denied "SignatureDoesNotMatch"
            else .next

/-! ## The n-consecutive-calls experiment for round-robin -/

/-- `n` consecutive `RoundRobinStrategy.SelectBucket` calls against a fixed
slice, threading the counter; returns the selected buckets in call order
and the final counter. -/
def rrCalls (counter : Nat) (buckets : List BucketInfo) : Nat → List BucketInfo × Nat
  | 0 => ([], counter)
  | n + 1 =>
      match RoundRobinStrategy.SelectBucket counter buckets with
      | .ok (b, c2) =>
          let p := rrCalls c2 buckets n
          (b :: p.1, p.2)
      | .error _ => ([], counter)

/-! ## Concrete instances used by witnesses and counterexamples -/

def wBucketA : BucketInfo := { config := { name := "A", weight := 1, maxSizeBytes := 100 } }

def wBucketB : BucketInfo := { config := { name := "B", weight := 3, maxSizeBytes := 100 } }

def wBuckets : List BucketInfo := [wBucketA, wBucketB]

def rrBucketA : BucketInfo := { config := { name := "A", maxSizeBytes := 10 } }

def rrBucketB : BucketInfo := { config := { name := "B", maxSizeBytes := 10 } }

def rrBucketC : BucketInfo := { config := { name := "C", maxSizeBytes := 10 } }

def rrBuckets : List BucketInfo := [rrBucketA, rrBucketB, rrBucketC]

/-- Two buckets with equal available space (a tie for the least-space
strategy); `tieBucketA` comes first in registry iteration order. -/
def tieBucketA : BucketInfo := { config := { name := "A", maxSizeBytes := 10 } }

def tieBucketB : BucketInfo := { config := { name := "B", maxSizeBytes := 10 } }

def chBucketA : BucketInfo := { config := { name := "a", maxSizeBytes := 100 } }

/-- Bucket names whose virtual keys `"b5-50"` and `"b617-35"` have the same
high-32-bit MD5 hash `3851986694` — a genuine collision of the ring's
32-bit point hash. -/
def colBucket5 : BucketInfo := { config := { name := "b5", maxSizeBytes := 100 } }

def colBucket617 : BucketInfo := { config := { name := "b617", maxSizeBytes := 100 } }

def colBuckets : List BucketInfo := [colBucket5, colBucket617]

/-- A consistent-hash strategy state with two virtual nodes per bucket,
used to witness the ring invariants at a small size (the theorem is
proved for every virtual-node count; the constructed strategy uses 100). -/
def chStrategy2 : ConsistentHashStrategy := { replicas := 2, ring := [], nodes := [] }

def delState0 : ApiState :=
  { db := [("k", { bucketName := "b", size := 5 })],
    buckets := [{ config := { name := "b", maxSizeBytes := 100 }, usedSize := 7 }] }

def cfgManager0 : ConfigManager :=
  { heap := { arrays := [[{ name := "a", maxSizeBytes := 1 }]] },
    config := { serverPort := 8080, databaseDSN := "dsn", bucketsRef := 0,
                balancerStrategy := "round-robin", s3apiProxyMode := false,
                metricsEnabled := false } }

def evilBucketCfg : BucketConfig := { name := "evil" }

def authCfgOn : AuthConfig :=
  { required := some true, credentials := some (strBytes "user", strBytes "pw") }

def authHeaderGood : List Nat := strBytes "Basic dXNlcjpwdw=="

/-! # Theorems -/

/-! ## Generic helper lemmas -/

theorem getD_mem {α : Type} {l : List α} {n : Nat} (d : α) (h : n < l.length) :
    l.getD n d ∈ l := by
  rw [List.getD_eq_getElem?_getD, List.getElem?_eq_getElem h]
  exact List.getElem_mem h

theorem totalWeight_cons (b : BucketInfo) (l : List BucketInfo) :
    totalWeight (b :: l) = b.config.weight + totalWeight l := by
  simp [totalWeight]

theorem totalWeight_nonneg {l : List BucketInfo}
    (h : ∀ b ∈ l, 0 ≤ b.config.weight) : 0 ≤ totalWeight l := by
  induction l with
  | nil => simp [totalWeight]
  | cons b t ih =>
      have hb := h b (List.mem_cons_self b t)
      have ht := ih (fun x hx => h x (List.mem_cons_of_mem b hx))
      rw [totalWeight_cons]
      omega

theorem weightedWalk_mem {r : Int} :
    ∀ (bs : List BucketInfo) (cur : Int) {b : BucketInfo},
      weightedWalk r cur bs = some b → b ∈ bs := by
  intro bs
  induction bs with
  | nil => intro cur b h; simp [weightedWalk] at h
  | cons b0 t ih =>
      intro cur b h
      simp only [weightedWalk] at h
      by_cases hr : r < cur + b0.config.weight
      · rw [if_pos hr] at h
        cases h
        exact List.mem_cons_self b0 t
      · rw [if_neg hr] at h
        exact List.mem_cons_of_mem b0 (ih (cur + b0.config.weight) h)

theorem weightedWalk_spec (r : Int) :
    ∀ (bs : List BucketInfo) (cur : Int), cur ≤ r → r < cur + totalWeight bs →
    ∃ (i : Nat) (hi : i < bs.length),
      weightedWalk r cur bs = some (bs.get ⟨i, hi⟩) ∧
      r < cur + totalWeight (bs.take (i + 1)) ∧
      ∀ j < i, cur + totalWeight (bs.take (j + 1)) ≤ r := by
  intro bs
  induction bs with
  | nil =>
      intro cur hcur hlt
      simp [totalWeight] at hlt
      omega
  | cons b0 t ih =>
      intro cur hcur hlt
      by_cases hr : r < cur + b0.config.weight
      · refine ⟨0, by simp, ?_, ?_, ?_⟩
        · simp [weightedWalk, hr]
        · simpa [totalWeight_cons, totalWeight] using hr
        · intro j hj; omega
      · have hcur2 : cur + b0.config.weight ≤ r := by omega
        have hlt2 : r < cur + b0.config.weight + totalWeight t := by
          rw [totalWeight_cons] at hlt; omega
        obtain ⟨i, hi, heq, hbound, hfirst⟩ := ih (cur + b0.config.weight) hcur2 hlt2
        refine ⟨i + 1, by simpa using Nat.succ_lt_succ hi, ?_, ?_, ?_⟩
        · simpa [weightedWalk, hr] using heq
        · rw [List.take_succ_cons, totalWeight_cons]
          omega
        · intro j hj
          cases j with
          | zero => simpa [totalWeight_cons, totalWeight] using hcur2
          | succ k =>
              have hk : k < i := by omega
              have := hfirst k hk
              rw [List.take_succ_cons, totalWeight_cons]
              omega

/-! ## C4 — the weighted-random strategy -/

/-- C4.  For every non-empty list of buckets with non-negative weights:
when the total weight `W` is zero the strategy returns, without error, the
list element selected by the uniform draw `r ∈ [0, n)`; when `W > 0` and
`r ∈ [0, W)` is the uniform draw, it returns, without error, the first
bucket in list order whose cumulative weight strictly exceeds `r`. -/
theorem c4_weighted_selection (buckets : List BucketInfo) (r : Int)
    (hne : buckets ≠ [])
    (hw : ∀ b ∈ buckets, 0 ≤ b.config.weight) :
    (totalWeight buckets = 0 → 0 ≤ r → r < (buckets.length : Int) →
      WeightedStrategy.SelectBucket r buckets = .ok (buckets.getD r.toNat default) ∧
      buckets.getD r.toNat default ∈ buckets) ∧
    (0 < totalWeight buckets → 0 ≤ r → r < totalWeight buckets →
      ∃ (i : Nat) (hi : i < buckets.length),
        WeightedStrategy.SelectBucket r buckets = .ok (buckets.get ⟨i, hi⟩) ∧
        r < totalWeight (buckets.take (i + 1)) ∧
        ∀ j < i, totalWeight (buckets.take (j + 1)) ≤ r) := by
  cases buckets with
  | nil => cases hne rfl
  | cons b0 rest =>
      constructor
      · intro h0 hr hlt
        constructor
        · simp [WeightedStrategy.SelectBucket, h0]
        · refine getD_mem _ ?_
          rw [Int.toNat_lt hr]
          exact_mod_cast hlt
      · intro hpos hr hlt
        obtain ⟨i, hi, heq, hbound, hfirst⟩ :=
          weightedWalk_spec r (b0 :: rest) 0 hr (by simpa using hlt)
        refine ⟨i, hi, ?_, by simpa using hbound, fun j hj => by simpa using hfirst j hj⟩
        have hne0 : ¬ totalWeight (b0 :: rest) = 0 := by omega
        have hneg : ¬ totalWeight (b0 :: rest) < 0 := by omega
        simp [WeightedStrategy.SelectBucket, hne0, hneg, heq]

/-- Witness for C4 at a concrete input: buckets of weights 1 and 3 and the
draw `r = 3` select the second bucket (cumulative weight 4 > 3 > 1). -/
theorem c4_weighted_selection_witness :
    wBuckets ≠ [] ∧ (∀ b ∈ wBuckets, 0 ≤ b.config.weight) ∧
    (0:Int) < totalWeight wBuckets ∧
    ∃ (i : Nat) (hi : i < wBuckets.length),
      WeightedStrategy.SelectBucket 3 wBuckets = .ok (wBuckets.get ⟨i, hi⟩) ∧
      (3:Int) < totalWeight (wBuckets.take (i + 1)) ∧
      ∀ j < i, totalWeight (wBuckets.take (j + 1)) ≤ 3 :=
  ⟨by decide, by decide, by decide,
    (c4_weighted_selection wBuckets 3 (by decide) (by decide)).2
      (by decide) (by decide) (by decide)⟩

/-! ## C3 — round-robin over n consecutive calls -/

theorem isEmpty_false_of_ne_nil {α : Type} {l : List α} (h : l ≠ []) :
    l.isEmpty = false := by
  cases l with
  | nil => cases h rfl
  | cons a t => rfl

/-- Closed form for `n` consecutive round-robin calls while the 64-bit
counter does not wrap: call `i` (0-based) selects index
`(c + 1 + i) mod len`. -/
theorem rrCalls_formula (bs : List BucketInfo) (hne : bs ≠ []) :
    ∀ (m c : Nat), c + m < uint64Mod →
    (rrCalls c bs m).1 =
      (List.range m).map (fun i => bs.getD ((c + 1 + i) % bs.length) default) := by
  intro m
  induction m with
  | zero => intro c _; simp [rrCalls]
  | succ n ih =>
      intro c h
      have hc : (c + 1) % uint64Mod = c + 1 := Nat.mod_eq_of_lt (by omega)
      have hbs := isEmpty_false_of_ne_nil hne
      have hrec := ih (c + 1) (by omega)
      simp only [rrCalls, RoundRobinStrategy.SelectBucket, hbs, Bool.false_eq_true,
        if_false, hc]
      rw [hrec, List.range_succ_eq_map, List.map_cons, List.map_map]
      refine congrArg₂ _ (by simp) ?_
      refine List.map_congr_left ?_
      intro i _
      simp only [Function.comp_apply, Nat.succ_eq_add_one]
      have hidx : c + 1 + 1 + i = c + 1 + (i + 1) := by omega
      rw [hidx]

/-- The indices hit by `n` consecutive calls form a permutation of
`range n` when the counter does not wrap. -/
theorem range_map_add_mod_perm (n a : Nat) (hn : 0 < n) :
    ((List.range n).map (fun i => (a + i) % n)).Perm (List.range n) := by
  have hnodup : ((List.range n).map (fun i => (a + i) % n)).Nodup := by
    refine List.Nodup.map_on ?_ (List.nodup_range n)
    intro i hi j hj hij
    have hi2 : i < n := List.mem_range.mp hi
    have hj2 : j < n := List.mem_range.mp hj
    have hmod : (a + i) % n = (a + j) % n := hij
    have : i % n = j % n :=
      Nat.ModEq.add_left_cancel (Nat.ModEq.refl a) hmod
    rwa [Nat.mod_eq_of_lt hi2, Nat.mod_eq_of_lt hj2] at this
  have hsub : ((List.range n).map (fun i => (a + i) % n)) ⊆ List.range n := by
    intro x hx
    obtain ⟨i, _, rfl⟩ := List.mem_map.mp hx
    exact List.mem_range.mpr (Nat.mod_lt _ hn)
  refine (List.subperm_of_subset hnodup hsub).perm_of_length_le ?_
  simp

/-- C3 counterexample.  With the counter at `2^64 - 2` (a state reachable
after `2^64 - 2` calls), three consecutive calls over three buckets return
`[A, A, B]` — bucket `A` twice and bucket `C` never — because the `uint64`
counter wraps to 0 mid-sequence and `2^64 mod 3 ≠ 0`.  The claim "any n
consecutive calls select each of the n buckets exactly once" is therefore
false at this input. -/
theorem c3_round_robin_counterexample :
    rrBuckets.length = 3 ∧
    (rrCalls (2 ^ 64 - 2) rrBuckets 3).1 = [rrBucketA, rrBucketA, rrBucketB] ∧
    ¬ ((rrCalls (2 ^ 64 - 2) rrBuckets 3).1.Perm rrBuckets) := by
  have heq : (rrCalls (2 ^ 64 - 2) rrBuckets 3).1 = [rrBucketA, rrBucketA, rrBucketB] := by
    decide
  refine ⟨rfl, heq, ?_⟩
  intro h
  have hmem : rrBucketC ∈ (rrCalls (2 ^ 64 - 2) rrBuckets 3).1 :=
    (h.mem_iff (a := rrBucketC)).mpr (by decide)
  rw [heq] at hmem
  exact absurd hmem (by decide)

/-- C3, amended.  For a fixed non-empty list of `n` buckets presented in
the same order on every call, `n` consecutive calls whose `uint64` counter
increments do not wrap (`c + n < 2^64` — true for the first `2^64 - n`
calls of a process) select each of the `n` list positions exactly once:
the strategy indexes `counter mod n`, and the chosen indices are a
permutation of `range n`. -/
theorem c3_round_robin_cycle (bs : List BucketInfo) (c n : Nat)
    (hn : bs.length = n) (hne : bs ≠ []) (hwrap : c + n < uint64Mod) :
    ∃ idxs : List Nat,
      idxs = (List.range n).map (fun i => (c + 1 + i) % n) ∧
      idxs.Perm (List.range n) ∧
      (rrCalls c bs n).1 = idxs.map (fun i => bs.getD i default) := by
  have hpos : 0 < n := by
    cases bs with
    | nil => cases hne rfl
    | cons a t => simp [← hn]
  refine ⟨_, rfl, ?_, ?_⟩
  · have := range_map_add_mod_perm n (c + 1) hpos
    refine List.Perm.trans (List.Perm.of_eq ?_) this
    refine List.map_congr_left ?_
    intro i _
    omega
  · rw [rrCalls_formula bs hne n c hwrap, List.map_map]
    refine List.map_congr_left ?_
    intro i _
    simp [Function.comp, hn]

/-- Witness for the amended C3 at a concrete input: from a fresh counter,
three calls over three buckets hit each position exactly once. -/
theorem c3_round_robin_cycle_witness :
    rrBuckets.length = 3 ∧ rrBuckets ≠ [] ∧ 0 + 3 < uint64Mod ∧
    ∃ idxs : List Nat,
      idxs = (List.range 3).map (fun i => (0 + 1 + i) % 3) ∧
      idxs.Perm (List.range 3) ∧
      (rrCalls 0 rrBuckets 3).1 = idxs.map (fun i => rrBuckets.getD i default) :=
  ⟨rfl, by decide, by decide,
    c3_round_robin_cycle rrBuckets 0 3 rfl (by decide) (by decide)⟩

/-! ## C7 — the least-space strategy -/

/-- C7 counterexample.  Two buckets tie for the maximal available space;
`tieBucketA` comes first in registry iteration order, yet `.ok tieBucketB`
is an admissible outcome of the strategy, because `sort.Slice` is
unstable and `[tieBucketB, tieBucketA]` is a sorted permutation of the
input for the strategy's comparator.  The claim's tie-break — "returns the
first such bucket in the registry iteration order" — is therefore not
guaranteed by the code. -/
theorem c7_least_space_counterexample :
    LeastSpaceStrategy.Selects [tieBucketA, tieBucketB] (.ok tieBucketB) ∧
    tieBucketB ≠ tieBucketA ∧
    tieBucketA.GetAvailableSpace = tieBucketB.GetAvailableSpace ∧
    ¬ (∀ out, LeastSpaceStrategy.Selects [tieBucketA, tieBucketB] out →
        out = .ok tieBucketA) := by
  have hsel : LeastSpaceStrategy.Selects [tieBucketA, tieBucketB] (.ok tieBucketB) :=
    ⟨[tieBucketB, tieBucketA], by decide, ⟨by decide, by decide⟩, rfl⟩
  refine ⟨hsel, by decide, by decide, ?_⟩
  intro hall
  have := hall (.ok tieBucketB) hsel
  have hne : tieBucketB ≠ tieBucketA := by decide
  exact hne (by injection this)

/-- C7, amended.  Every outcome of the least-space strategy on a non-empty
list is a bucket of the list whose available space
(`max_size_bytes - used_size`) is maximal; when several buckets tie for
the maximum, which of them is returned is not specified (Go's
`sort.Slice` is unstable). -/
theorem c7_least_space_maximal (bs : List BucketInfo)
    (out : Except SelectError BucketInfo) (b : BucketInfo)
    (hne : bs ≠ []) (hsel : LeastSpaceStrategy.Selects bs out)
    (hout : out = .ok b) :
    b ∈ bs ∧ ∀ b2 ∈ bs, b2.GetAvailableSpace ≤ b.GetAvailableSpace := by
  cases bs with
  | nil => cases hne rfl
  | cons b0 t =>
      obtain ⟨s, hs, ⟨hperm, hpair⟩, heq⟩ := hsel
      rw [hout] at heq
      have hb : b = s.head hs := by injection heq
      subst hb
      constructor
      · exact hperm.mem_iff.mp (List.head_mem hs)
      · intro b2 hb2
        have hb2s : b2 ∈ s := hperm.mem_iff.mpr hb2
        cases s with
        | nil => cases hs rfl
        | cons sh st =>
            rcases List.mem_cons.mp hb2s with h | h
            · subst h; exact le_refl _
            · have := List.rel_of_pairwise_cons hpair h
              simp only [moreSpace, not_lt] at this
              simpa using this

/-- Witness for the amended C7 at a concrete input. -/
theorem c7_least_space_maximal_witness :
    ([tieBucketA] : List BucketInfo) ≠ [] ∧
    tieBucketA ∈ [tieBucketA] ∧
    ∀ b2 ∈ [tieBucketA], b2.GetAvailableSpace ≤ tieBucketA.GetAvailableSpace :=
  have hsel : LeastSpaceStrategy.Selects [tieBucketA] (.ok tieBucketA) :=
    ⟨[tieBucketA], by decide, ⟨by decide, by decide⟩, rfl⟩
  have h := c7_least_space_maximal [tieBucketA] (.ok tieBucketA) tieBucketA
    (by decide) hsel rfl
  ⟨by decide, h.1, h.2⟩

/-! ## C1 — every selected bucket passed the capacity filter -/

theorem except_map_ok {ε α β : Type} {f : α → β} {e : Except ε α} {x : β}
    (h : e.map f = .ok x) : ∃ y, e = .ok y ∧ f y = x := by
  cases e with
  | error err => simp [Except.map] at h
  | ok y =>
      refine ⟨y, rfl, ?_⟩
      simpa [Except.map] using h

theorem rr_select_mem {c : Nat} {bs : List BucketInfo} {b : BucketInfo} {c2 : Nat}
    (h : RoundRobinStrategy.SelectBucket c bs = .ok (b, c2)) : b ∈ bs := by
  cases bs with
  | nil => simp [RoundRobinStrategy.SelectBucket] at h
  | cons b0 t =>
      simp only [RoundRobinStrategy.SelectBucket, List.isEmpty_cons,
        Bool.false_eq_true, if_false] at h
      injection h with h
      have hb : b = (b0 :: t).getD ((c + 1) % uint64Mod % (b0 :: t).length) default := by
        have := congrArg Prod.fst h
        simpa using this.symm
      rw [hb]
      exact getD_mem _ (Nat.mod_lt _ (by simp))

theorem least_space_select_mem {bs : List BucketInfo} {b : BucketInfo}
    (h : LeastSpaceStrategy.Selects bs (.ok b)) : b ∈ bs := by
  cases bs with
  | nil => simp [LeastSpaceStrategy.Selects] at h
  | cons b0 t =>
      obtain ⟨s, hs, ⟨hperm, _⟩, heq⟩ := h
      have hb : b = s.head hs := by injection heq
      rw [hb]
      exact hperm.mem_iff.mp (List.head_mem hs)

theorem weighted_select_mem {r : Int} {bs : List BucketInfo} {b : BucketInfo}
    (hr0 : 0 ≤ r) (hrlen : totalWeight bs = 0 → r < (bs.length : Int))
    (h : WeightedStrategy.SelectBucket r bs = .ok b) : b ∈ bs := by
  cases bs with
  | nil => simp [WeightedStrategy.SelectBucket] at h
  | cons b0 t =>
      simp only [WeightedStrategy.SelectBucket] at h
      by_cases h0 : totalWeight (b0 :: t) = 0
      · rw [if_pos h0] at h
        injection h with h
        rw [← h]
        refine getD_mem _ ?_
        rw [Int.toNat_lt hr0]
        exact_mod_cast hrlen h0
      · rw [if_neg h0] at h
        by_cases hneg : totalWeight (b0 :: t) < 0
        · rw [if_pos hneg] at h; cases h
        · rw [if_neg hneg] at h
          cases hw : weightedWalk r 0 (b0 :: t) with
          | some bw =>
              rw [hw] at h
              injection h with h
              rw [← h]
              exact weightedWalk_mem _ _ hw
          | none =>
              rw [hw] at h
              injection h with h
              rw [← h]
              exact List.getLast_mem _

theorem buildRing_value_mem {r : Nat} :
    ∀ {bs : List BucketInfo} {p : Nat × BucketInfo},
      p ∈ buildRing r bs → p.2 ∈ bs := by
  intro bs
  induction bs with
  | nil => intro p h; simp [buildRing] at h
  | cons b0 t ih =>
      intro p h
      simp only [buildRing] at h
      rcases List.mem_append.mp h with h | h
      · exact List.mem_cons_of_mem _ (ih h)
      · obtain ⟨hh, _, hfx⟩ := List.mem_map.mp h
        rw [← hfx]
        exact List.mem_cons_self _ _

theorem ringFind_mem {ring : List (Nat × BucketInfo)} {h : Nat} {b : BucketInfo}
    (hf : ringFind ring h = some b) : ∃ p ∈ ring, p.2 = b := by
  unfold ringFind at hf
  cases hfind : ring.find? (fun p => p.1 == h) with
  | none => rw [hfind] at hf; cases hf
  | some p =>
      rw [hfind] at hf
      injection hf with hf
      exact ⟨p, List.mem_of_find?_eq_some hfind, hf⟩

theorem ch_select_mem {s : ConsistentHashStrategy} {bs : List BucketInfo}
    {key : String} {b : BucketInfo} {s2 : ConsistentHashStrategy}
    (h : ConsistentHashStrategy.SelectBucket s bs key = .ok (b, s2)) : b ∈ bs := by
  simp only [ConsistentHashStrategy.SelectBucket] at h
  by_cases hbs : bs.isEmpty
  · rw [if_pos hbs] at h; cases h
  · rw [if_neg hbs] at h
    split at h
    · split at h
      · injection h with h
        rename_i hrf
        obtain ⟨p, hp, hpb⟩ := ringFind_mem hrf
        have : p.2 ∈ bs := buildRing_value_mem hp
        have hb : b = p.2 := by
          have := congrArg Prod.fst h
          simp at this
          rw [← this, hpb]
        rwa [hb]
      · cases h
    · split at h
      · injection h with h
        rename_i hrf
        obtain ⟨p, hp, hpb⟩ := ringFind_mem hrf
        have : p.2 ∈ bs := buildRing_value_mem hp
        have hb : b = p.2 := by
          have := congrArg Prod.fst h
          simp at this
          rw [← this, hpb]
        rwa [hb]
      · cases h
    · cases h

/-- C1.  Whichever of the four strategies is active, a successful
`Balancer.SelectBucket` returns a bucket drawn from the filtered available
set, and that bucket's available space at filter time is at least the
requested size — never smaller.  (The hypothesis is the `rand.Intn`
contract for the weighted strategy's draw.) -/
theorem c1_select_filtered (st : StrategyState) (buckets : List BucketInfo)
    (key : String) (size : Int) (b : BucketInfo) (st2 : StrategyState)
    (hrand : RandContract st (eligibleBuckets buckets size))
    (hsel : Balancer.Selects st buckets key size (.ok (b, st2))) :
    b ∈ eligibleBuckets buckets size ∧ size ≤ b.GetAvailableSpace := by
  unfold Balancer.Selects at hsel
  by_cases hbs : buckets.isEmpty
  · rw [if_pos hbs] at hsel; cases hsel
  · rw [if_neg hbs] at hsel
    by_cases hav : (eligibleBuckets buckets size).isEmpty
    · rw [if_pos hav] at hsel; cases hsel
    · rw [if_neg hav] at hsel
      have hmem : b ∈ eligibleBuckets buckets size := by
        cases st with
        | roundRobin c =>
            simp only [StrategySelects] at hsel
            obtain ⟨⟨b2, c2⟩, hok, hf⟩ := except_map_ok hsel.symm
            have hb : b2 = b := by
              have := congrArg Prod.fst hf
              simpa using this
            rw [← hb]
            exact rr_select_mem hok
        | leastSpace =>
            simp only [StrategySelects] at hsel
            obtain ⟨res, hres, heq⟩ := hsel
            obtain ⟨b2, hok, hf⟩ := except_map_ok heq.symm
            have hb : b2 = b := by
              have := congrArg Prod.fst hf
              simpa using this
            rw [← hb]
            rw [hok] at hres
            exact least_space_select_mem hres
        | weighted r =>
            simp only [StrategySelects] at hsel
            obtain ⟨b2, hok, hf⟩ := except_map_ok hsel.symm
            have hb : b2 = b := by
              have := congrArg Prod.fst hf
              simpa using this
            rw [← hb]
            exact weighted_select_mem hrand.1 hrand.2.1 hok
        | consistentHash s =>
            simp only [StrategySelects] at hsel
            obtain ⟨⟨b2, s2x⟩, hok, hf⟩ := except_map_ok hsel.symm
            have hb : b2 = b := by
              have := congrArg Prod.fst hf
              simpa using this
            rw [← hb]
            exact ch_select_mem hok
      refine ⟨hmem, ?_⟩
      have := (List.mem_filter.mp hmem).2
      simpa using this

/-- Witness for C1 at a concrete input (weighted strategy, draw 0,
request size 0). -/
theorem c1_select_filtered_witness :
    RandContract (.weighted 0) (eligibleBuckets wBuckets 0) ∧
    (wBucketA ∈ eligibleBuckets wBuckets 0 ∧ (0:Int) ≤ wBucketA.GetAvailableSpace) := by
  have hrand : RandContract (.weighted 0) (eligibleBuckets wBuckets 0) := by
    refine ⟨le_refl 0, ?_, ?_⟩
    · intro h; exact absurd h (by decide)
    · intro _; decide
  have hsel : Balancer.Selects (.weighted 0) wBuckets "k" 0
      (.ok (wBucketA, .weighted 0)) := rfl
  exact ⟨hrand, c1_select_filtered _ wBuckets "k" 0 wBucketA (.weighted 0) hrand hsel⟩

/-! ## C2 — the exact failure cases of `Balancer.SelectBucket` -/

theorem rr_select_ok (c : Nat) (bs : List BucketInfo) (hne : bs ≠ []) :
    ∃ b c2, RoundRobinStrategy.SelectBucket c bs = .ok (b, c2) := by
  cases bs with
  | nil => cases hne rfl
  | cons b0 t => exact ⟨_, _, rfl⟩

theorem weighted_select_ok (r : Int) (bs : List BucketInfo) (hne : bs ≠ [])
    (hw : ∀ b ∈ bs, 0 ≤ b.config.weight) :
    ∃ b, WeightedStrategy.SelectBucket r bs = .ok b := by
  cases bs with
  | nil => cases hne rfl
  | cons b0 t =>
      simp only [WeightedStrategy.SelectBucket]
      by_cases h0 : totalWeight (b0 :: t) = 0
      · rw [if_pos h0]; exact ⟨_, rfl⟩
      · rw [if_neg h0]
        rw [if_neg (not_lt.mpr (totalWeight_nonneg hw))]
        cases hwk : weightedWalk r 0 (b0 :: t) with
        | some bw => exact ⟨bw, rfl⟩
        | none => exact ⟨_, rfl⟩

theorem buildNodes_length (r : Nat) :
    ∀ (bs : List BucketInfo), (buildNodes r bs).length = r * bs.length := by
  intro bs
  induction bs with
  | nil => simp [buildNodes]
  | cons b0 t ih =>
      simp only [buildNodes, List.length_append, List.length_cons, ih,
        bucketNodeHashes, List.length_map, List.length_range]
      ring

theorem ringFind_isSome {r : Nat} :
    ∀ {bs : List BucketInfo} {h : Nat}, h ∈ buildNodes r bs →
      ∃ b, ringFind (buildRing r bs) h = some b := by
  intro bs
  induction bs with
  | nil => intro h hh; simp [buildNodes] at hh
  | cons b0 t ih =>
      intro h hh
      simp only [buildNodes] at hh
      have hsplit : buildRing r (b0 :: t) = buildRing r t ++
          ((bucketNodeHashes r b0.config.name).reverse.map (fun x => (x, b0))) := rfl
      rcases List.mem_append.mp hh with hh | hh
      · cases hfind : List.find? (fun p => p.1 == h) (buildRing r t) with
        | some p =>
            refine ⟨p.2, ?_⟩
            unfold ringFind
            rw [hsplit, List.find?_append, hfind]
            rfl
        | none =>
            have hmem : (h, b0) ∈
                (bucketNodeHashes r b0.config.name).reverse.map (fun x => (x, b0)) :=
              List.mem_map.mpr ⟨h, List.mem_reverse.mpr hh, rfl⟩
            have hex : ∃ q ∈ (bucketNodeHashes r b0.config.name).reverse.map
                (fun x => (x, b0)), (fun p => p.1 == h) q = true :=
              ⟨(h, b0), hmem, by simp⟩
            obtain ⟨q, hq⟩ := Option.isSome_iff_exists.mp (List.find?_isSome.mpr hex)
            refine ⟨q.2, ?_⟩
            unfold ringFind
            rw [hsplit, List.find?_append, hfind, Option.none_or, hq]
            rfl
      · obtain ⟨b2, hb2⟩ := ih hh
        unfold ringFind at hb2 ⊢
        cases hfind : List.find? (fun p => p.1 == h) (buildRing r t) with
        | some p =>
            refine ⟨p.2, ?_⟩
            rw [hsplit, List.find?_append, hfind]
            rfl
        | none => rw [hfind] at hb2; simp at hb2

theorem updateRing_nodes (s : ConsistentHashStrategy) (bs : List BucketInfo) :
    (s.updateRing bs).nodes =
      List.insertionSort (fun a b : Nat => a ≤ b) (buildNodes s.replicas bs) := rfl

theorem updateRing_ring (s : ConsistentHashStrategy) (bs : List BucketInfo) :
    (s.updateRing bs).ring = buildRing s.replicas bs := rfl

theorem ch_select_ok (s : ConsistentHashStrategy) (bs : List BucketInfo)
    (key : String) (hr : 0 < s.replicas) (hne : bs ≠ []) :
    ∃ b s2, ConsistentHashStrategy.SelectBucket s bs key = .ok (b, s2) := by
  have hbs := isEmpty_false_of_ne_nil hne
  have hlen : 0 < bs.length := by
    cases bs with
    | nil => cases hne rfl
    | cons a t => simp
  have hperm := List.perm_insertionSort (fun a b : Nat => a ≤ b) (buildNodes s.replicas bs)
  simp only [ConsistentHashStrategy.SelectBucket, hbs, Bool.false_eq_true, if_false]
  cases hfind : List.find? (fun x => decide (ConsistentHashStrategy.hash key ≤ x))
      (s.updateRing bs).nodes with
  | some v =>
      have hv : v ∈ (s.updateRing bs).nodes := List.mem_of_find?_eq_some hfind
      have hv2 : v ∈ buildNodes s.replicas bs := by
        rw [updateRing_nodes] at hv
        exact hperm.mem_iff.mp hv
      obtain ⟨b, hb⟩ := ringFind_isSome hv2
      have hb2 : ringFind (s.updateRing bs).ring v = some b := by
        rw [updateRing_ring]; exact hb
      refine ⟨b, s.updateRing bs, ?_⟩
      show (match ringFind (s.updateRing bs).ring v with
            | some b2 => Except.ok (b2, s.updateRing bs)
            | none => Except.error SelectError.panicIndex) = _
      rw [hb2]
  | none =>
      cases hnodes : (s.updateRing bs).nodes with
      | nil =>
          exfalso
          rw [updateRing_nodes] at hnodes
          have h1 := hperm.length_eq
          rw [hnodes] at h1
          rw [buildNodes_length] at h1
          rw [List.length_nil] at h1
          have := Nat.mul_pos hr hlen
          omega
      | cons v tail =>
          have hv : v ∈ (s.updateRing bs).nodes := by
            rw [hnodes]; exact List.mem_cons_self _ _
          have hv2 : v ∈ buildNodes s.replicas bs := by
            rw [updateRing_nodes] at hv
            exact hperm.mem_iff.mp hv
          obtain ⟨b, hb⟩ := ringFind_isSome hv2
          have hb2 : ringFind (s.updateRing bs).ring v = some b := by
            rw [updateRing_ring]; exact hb
          refine ⟨b, s.updateRing bs, ?_⟩
          show (match ringFind (s.updateRing bs).ring v with
                | some b2 => Except.ok (b2, s.updateRing bs)
                | none => Except.error SelectError.panicIndex) = _
          rw [hb2]

theorem least_space_selects_of_ne {bs : List BucketInfo} (hne : bs ≠ [])
    {s : List BucketInfo} (hs : s ≠ []) (hsr : IsSortSliceResult bs s) :
    LeastSpaceStrategy.Selects bs (.ok (s.head hs)) := by
  cases bs with
  | nil => cases hne rfl
  | cons a t => exact ⟨s, hs, hsr, rfl⟩

/-- C2.  `Balancer.SelectBucket` fails in exactly two cases: an empty
available set yields the `NoAvailableBackend` error, and a non-empty
available set none of whose buckets has free space at least `size` yields
the `InsufficientCapacity` error carrying `size`; whenever an eligible
bucket exists, every admissible outcome is a bucket, and one exists.
(Hypotheses: the spec's §3 invariant that configured weights are
non-negative — otherwise `rand.Intn` would panic in the weighted
strategy — and the invariant that a consistent-hash state carries the
positive `replicas = 100` it was constructed with.) -/
theorem c2_error_cases (st : StrategyState) (buckets : List BucketInfo)
    (key : String) (size : Int)
    (hw : ∀ b ∈ buckets, 0 ≤ b.config.weight)
    (hwf : StrategyWF st) :
    (buckets = [] →
      ∀ out, Balancer.Selects st buckets key size out ↔
        out = .error .noAvailableBuckets) ∧
    (buckets ≠ [] → eligibleBuckets buckets size = [] →
      ∀ out, Balancer.Selects st buckets key size out ↔
        out = .error (.insufficientSpace size)) ∧
    (eligibleBuckets buckets size ≠ [] →
      (∃ b st2, Balancer.Selects st buckets key size (.ok (b, st2))) ∧
      ∀ out, Balancer.Selects st buckets key size out →
        ∃ b st2, out = .ok (b, st2)) := by
  refine ⟨?_, ?_, ?_⟩
  · intro hnil out
    subst hnil
    simp [Balancer.Selects]
  · intro hne hempty out
    have hbs := isEmpty_false_of_ne_nil hne
    simp [Balancer.Selects, hbs, hempty]
  · intro hav
    have hbsne : buckets ≠ [] := by
      intro hnil
      subst hnil
      exact hav rfl
    have hbs := isEmpty_false_of_ne_nil hbsne
    have havF := isEmpty_false_of_ne_nil hav
    have hreduce : ∀ out, Balancer.Selects st buckets key size out ↔
        StrategySelects st (eligibleBuckets buckets size) key size out := by
      intro out
      simp [Balancer.Selects, hbs, havF]
    have hw2 : ∀ b ∈ eligibleBuckets buckets size, 0 ≤ b.config.weight :=
      fun b hb => hw b (List.mem_of_mem_filter hb)
    constructor
    · -- an admissible successful outcome exists
      cases st with
      | roundRobin c =>
          obtain ⟨b, c2, hok⟩ := rr_select_ok c _ hav
          exact ⟨b, .roundRobin c2, (hreduce _).mpr (by simp [StrategySelects, hok, Except.map])⟩
      | leastSpace =>
          obtain ⟨a0, t, heq⟩ : ∃ a0 t, eligibleBuckets buckets size = a0 :: t := by
            cases hl : eligibleBuckets buckets size with
            | nil => exact absurd hl hav
            | cons a0 t => exact ⟨a0, t, rfl⟩
          have hdec : DecidableRel
              (fun a b : BucketInfo => b.GetAvailableSpace ≤ a.GetAvailableSpace) :=
            fun a b => inferInstanceAs (Decidable (_ ≤ _))
          have htot : IsTotal BucketInfo
              (fun a b : BucketInfo => b.GetAvailableSpace ≤ a.GetAvailableSpace) :=
            ⟨fun a b => (le_total b.GetAvailableSpace a.GetAvailableSpace).imp id id⟩
          have htr : IsTrans BucketInfo
              (fun a b : BucketInfo => b.GetAvailableSpace ≤ a.GetAvailableSpace) :=
            ⟨fun _ _ _ hab hbc => le_trans hbc hab⟩
          have hperm := @List.perm_insertionSort BucketInfo _ hdec
            (eligibleBuckets buckets size)
          have hsorted := @List.sorted_insertionSort BucketInfo _ hdec htot htr
            (eligibleBuckets buckets size)
          have hsne : @List.insertionSort BucketInfo _ hdec
              (eligibleBuckets buckets size) ≠ [] := by
            intro hcon
            have hl := hperm.length_eq
            rw [hcon, heq] at hl
            simp at hl
          refine ⟨(@List.insertionSort BucketInfo _ hdec
              (eligibleBuckets buckets size)).head hsne, .leastSpace,
            (hreduce _).mpr ?_⟩
          simp only [StrategySelects]
          refine ⟨.ok ((@List.insertionSort BucketInfo _ hdec
            (eligibleBuckets buckets size)).head hsne), ?_, rfl⟩
          refine least_space_selects_of_ne hav hsne ⟨hperm, ?_⟩
          refine hsorted.imp ?_
          intro a b hab
          simp only [moreSpace, not_lt]
          exact hab
      | weighted r =>
          obtain ⟨b, hok⟩ := weighted_select_ok r _ hav hw2
          exact ⟨b, .weighted r, (hreduce _).mpr (by simp [StrategySelects, hok, Except.map])⟩
      | consistentHash s =>
          obtain ⟨b, s2, hok⟩ := ch_select_ok s _ key hwf hav
          exact ⟨b, .consistentHash s2, (hreduce _).mpr (by simp [StrategySelects, hok, Except.map])⟩
    · -- every admissible outcome is a success
      intro out hsel
      replace hsel := (hreduce out).mp hsel
      cases st with
      | roundRobin c =>
          obtain ⟨b, c2, hok⟩ := rr_select_ok c _ hav
          simp only [StrategySelects, hok, Except.map] at hsel
          exact ⟨b, .roundRobin c2, hsel⟩
      | leastSpace =>
          simp only [StrategySelects] at hsel
          obtain ⟨res, hres, hout⟩ := hsel
          obtain ⟨a0, t, heq⟩ : ∃ a0 t, eligibleBuckets buckets size = a0 :: t := by
            cases hl : eligibleBuckets buckets size with
            | nil => exact absurd hl hav
            | cons a0 t => exact ⟨a0, t, rfl⟩
          rw [heq] at hres
          obtain ⟨s, hs, _, hres2⟩ := hres
          rw [hres2] at hout
          exact ⟨s.head hs, .leastSpace, hout⟩
      | weighted r =>
          obtain ⟨b, hok⟩ := weighted_select_ok r _ hav hw2
          simp only [StrategySelects, hok, Except.map] at hsel
          exact ⟨b, .weighted r, hsel⟩
      | consistentHash s =>
          obtain ⟨b, s2, hok⟩ := ch_select_ok s _ key hwf hav
          simp only [StrategySelects, hok, Except.map] at hsel
          exact ⟨b, .consistentHash s2, hsel⟩

/-- Witness for C2 at a concrete input (round-robin, two buckets with free
space, request size 0): an eligible bucket exists and every admissible
outcome is a success. -/
theorem c2_error_cases_witness :
    (∀ b ∈ wBuckets, 0 ≤ b.config.weight) ∧
    eligibleBuckets wBuckets 0 ≠ [] ∧
    ((∃ b st2, Balancer.Selects (.roundRobin 0) wBuckets "k" 0 (.ok (b, st2))) ∧
      ∀ out, Balancer.Selects (.roundRobin 0) wBuckets "k" 0 out →
        ∃ b st2, out = .ok (b, st2)) :=
  ⟨by decide, by decide,
    (c2_error_cases (.roundRobin 0) wBuckets "k" 0 (by decide) trivial).2.2 (by decide)⟩

/-! ## C8 — DELETE /api/v1/objects/{key} twice in a row -/

theorem getObjectInfo_delete (db : StorageDB) (key : String) :
    StorageDB.getObjectInfo (StorageDB.deleteObject db key) key = none := by
  unfold StorageDB.getObjectInfo StorageDB.deleteObject
  have hnone : List.find? (fun p => p.1 == key)
      (List.filter (fun p => decide ¬ p.1 == key) db) = none := by
    refine List.find?_eq_none.mpr ?_
    intro p hp
    have := (List.mem_filter.mp hp).2
    simpa using this
  rw [hnone]
  rfl

/-- C8 counterexample.  On a store holding the key `"k"`, the first
`DELETE /api/v1/objects/k` succeeds (200) but the second responds
`404 "object not found"` — the handler looks the record up before
deleting, so deleting an already-absent key is an error at the API
boundary, refuting "performing delete(key) twice in a row succeeds both
times". -/
theorem c8_delete_counterexample :
    (handleDeleteObject delState0 "k").1 = 200 ∧
    (handleDeleteObject (handleDeleteObject delState0 "k").2 "k").1 = 404 ∧
    ¬ ((handleDeleteObject delState0 "k").1 = 200 ∧
       (handleDeleteObject (handleDeleteObject delState0 "k").2 "k").1 = 200) := by
  decide

/-- C8, amended.  The store-level `delete` is idempotent (deleting twice
equals deleting once, and the spec-modelled delete never errors), but the
DELETE endpoint first fetches the record's info: when the key is present
the first request succeeds with 200, and an immediately repeated request
fails with 404 because the record is gone. -/
theorem c8_delete_semantics (st : ApiState) (key : String) (info : ObjectInfo)
    (h : st.db.getObjectInfo key = some info) :
    (handleDeleteObject st key).1 = 200 ∧
    (handleDeleteObject (handleDeleteObject st key).2 key).1 = 404 ∧
    StorageDB.deleteObject (StorageDB.deleteObject st.db key) key
      = StorageDB.deleteObject st.db key := by
  refine ⟨?_, ?_, ?_⟩
  · simp [handleDeleteObject, h]
  · simp [handleDeleteObject, h, getObjectInfo_delete]
  · unfold StorageDB.deleteObject
    rw [List.filter_filter]
    refine List.filter_congr ?_
    intro p _
    simp

/-- Witness for the amended C8 at a concrete input. -/
theorem c8_delete_semantics_witness :
    delState0.db.getObjectInfo "k" = some { bucketName := "b", size := 5 } ∧
    (handleDeleteObject delState0 "k").1 = 200 ∧
    (handleDeleteObject (handleDeleteObject delState0 "k").2 "k").1 = 404 ∧
    StorageDB.deleteObject (StorageDB.deleteObject delState0.db "k") "k"
      = StorageDB.deleteObject delState0.db "k" := by
  have h : delState0.db.getObjectInfo "k" = some { bucketName := "b", size := 5 } := rfl
  have hmain := c8_delete_semantics delState0 "k" { bucketName := "b", size := 5 } h
  exact ⟨h, hmain.1, hmain.2.1, hmain.2.2⟩

/-! ## C9 — `Manager.GetConfig` returns a shallow copy -/

theorem getD_set {α : Type} (l : List α) (n : Nat) (x d : α) :
    (l.set n x).getD n d = if n < l.length then x else d := by
  induction l generalizing n with
  | nil => simp
  | cons a t ih =>
      cases n with
      | zero => simp
      | succ m =>
          show (t.set m x).getD m d = if m + 1 < (a :: t).length then x else d
          rw [ih m]
          simp only [List.length_cons]
          by_cases hm : m < t.length
          · rw [if_pos hm, if_pos (by omega)]
          · rw [if_neg hm, if_neg (by omega)]

/-- Writing element `i` of a slice through a reference changes what every
holder of that reference subsequently reads. -/
theorem heap_read_write (h : ConfigHeap) (r i : Nat) (v : BucketConfig) :
    (h.write r i v).read r = (h.read r).set i v := by
  unfold ConfigHeap.write ConfigHeap.read
  simp only []
  rw [getD_set]
  by_cases hr : r < h.arrays.length
  · rw [if_pos hr]
  · rw [if_neg hr]
    rw [List.getD_eq_default _ _ (le_of_not_lt hr)]
    simp

/-- C9 counterexample.  `GetConfig` hands out the live `Buckets` backing
array: a caller that mutates bucket 0 of the returned configuration's
bucket list changes what the manager's own configuration reads — the
mutation is observable through the manager, refuting the defensive-copy
claim. -/
theorem c9_get_config_counterexample :
    (cfgManager0.heap.write (ConfigManager.GetConfig cfgManager0).bucketsRef 0
        evilBucketCfg).read cfgManager0.config.bucketsRef
      ≠ cfgManager0.heap.read cfgManager0.config.bucketsRef := by
  decide

/-- C9, amended.  `GetConfig` returns a shallow copy: the top-level struct
(including every scalar field) is copied by value, but the nested
`Buckets` slice header is shared, so element writes through the returned
value are observable through the live configuration's own reference. -/
theorem c9_get_config_shallow (m : ConfigManager) (i : Nat) (v : BucketConfig) :
    ConfigManager.GetConfig m = m.config ∧
    (ConfigManager.GetConfig m).bucketsRef = m.config.bucketsRef ∧
    (m.heap.write (ConfigManager.GetConfig m).bucketsRef i v).read
        m.config.bucketsRef
      = (m.heap.read m.config.bucketsRef).set i v :=
  ⟨rfl, rfl, heap_read_write m.heap m.config.bucketsRef i v⟩

/-! ## C10 — the Basic-Auth middleware boundary -/

/-- C10.  When the required-predicate is nil or reports false, every
request is forwarded to the inner handler; when it reports true, the
inner handler is reached if and only if the `Authorization` header is
`"Basic "` followed by valid base64 whose decoding splits on the first
colon into the configured access key and secret key; and every request is
either forwarded or answered with an error response (never neither). -/
theorem c10_basic_auth (cfg : AuthConfig) (hdr : List Nat) :
    (cfg.required.getD false = false → BasicAuth cfg hdr = .next) ∧
    (cfg.required.getD false = true →
      (BasicAuth cfg hdr = .next ↔
        ∃ payload decoded,
          hdr = basicMarker ++ payload ∧
          b64Decode payload = some decoded ∧
          splitFirstColon decoded = some (cfg.accessKey, cfg.secretKey))) ∧
    (BasicAuth cfg hdr = .next ∨ ∃ code, BasicAuth cfg hdr = .denied code) := by
  refine ⟨?_, ?_, ?_⟩
  · intro h
    simp [BasicAuth, h]
  · intro h
    by_cases hpre : basicMarker.isPrefixOf hdr = true
    · obtain ⟨payload, hpay⟩ := List.isPrefixOf_iff_prefix.mp hpre
      have hdrop : hdr.drop basicMarker.length = payload := by
        rw [← hpay]
        exact List.drop_left _ _
      have hcancel : ∀ p2 : List Nat, hdr = basicMarker ++ p2 → payload = p2 := by
        intro p2 heq2
        refine List.append_cancel_left (?_ : basicMarker ++ payload = basicMarker ++ p2)
        rw [hpay]
        exact heq2
      simp only [BasicAuth, h, hpre, hdrop]
      cases hdec : b64Decode payload with
      | none =>
          simp only [hdec]
          constructor
          · intro hc
            simp at hc
          · rintro ⟨p2, d2, heq2, hdec2, _⟩
            rw [← hcancel p2 heq2, hdec] at hdec2
            cases hdec2
      | some decoded =>
          simp only [hdec]
          cases hsplit : splitFirstColon decoded with
          | none =>
              simp only [hsplit]
              constructor
              · intro hc
                simp at hc
              · rintro ⟨p2, d2, heq2, hdec2, hsp2⟩
                rw [← hcancel p2 heq2, hdec] at hdec2
                injection hdec2 with hd2
                rw [← hd2, hsplit] at hsp2
                cases hsp2
          | some up =>
              obtain ⟨user, pass⟩ := up
              simp only [hsplit]
              by_cases hu : user = cfg.accessKey
              · by_cases hp : pass = cfg.secretKey
                · subst hu
                  subst hp
                  simp only [ne_eq, not_true_eq_false, if_false]
                  exact ⟨fun _ => ⟨payload, decoded, hpay.symm, hdec, hsplit⟩,
                    fun _ => rfl⟩
                · constructor
                  · intro hc
                    exfalso
                    simp [hu, hp] at hc
                  · rintro ⟨p2, d2, heq2, hdec2, hsp2⟩
                    exfalso
                    rw [← hcancel p2 heq2, hdec] at hdec2
                    injection hdec2 with hd2
                    rw [← hd2, hsplit] at hsp2
                    injection hsp2 with hsp2
                    exact hp (congrArg Prod.snd hsp2)
              · constructor
                · intro hc
                  exfalso
                  simp [hu] at hc
                · rintro ⟨p2, d2, heq2, hdec2, hsp2⟩
                  exfalso
                  rw [← hcancel p2 heq2, hdec] at hdec2
                  injection hdec2 with hd2
                  rw [← hd2, hsplit] at hsp2
                  injection hsp2 with hsp2
                  exact hu (congrArg Prod.fst hsp2)
    · simp only [BasicAuth, h, hpre]
      constructor
      · intro hc
        simp [hpre] at hc
      · rintro ⟨p2, _, heq2, _, _⟩
        exact absurd (List.isPrefixOf_iff_prefix.mpr ⟨p2, heq2.symm⟩) hpre
  · cases houtcome : BasicAuth cfg hdr with
    | next => exact Or.inl rfl
    | denied c => exact Or.inr ⟨c, rfl⟩

/-- Witness for C10 at a concrete input: with auth required and
credentials `user`/`pw`, the header `"Basic dXNlcjpwdw=="` reaches the
inner handler. -/
theorem c10_basic_auth_witness :
    authCfgOn.required.getD false = true ∧ BasicAuth authCfgOn authHeaderGood = .next :=
  ⟨rfl, ((c10_basic_auth authCfgOn authHeaderGood).2.1 rfl).mpr
    ⟨strBytes "dXNlcjpwdw==", strBytes "user:pw", by decide, by decide, by decide⟩⟩

/-! ## C5 — consistent-hash placement stability -/

theorem buildNodes_names (r : Nat) :
    ∀ (bs1 bs2 : List BucketInfo),
      bs1.map (fun b => b.config.name) = bs2.map (fun b => b.config.name) →
      buildNodes r bs1 = buildNodes r bs2 := by
  intro bs1
  induction bs1 with
  | nil =>
      intro bs2 h
      cases bs2 with
      | nil => rfl
      | cons b2 t2 => simp at h
  | cons b t ih =>
      intro bs2 h
      cases bs2 with
      | nil => simp at h
      | cons b2 t2 =>
          simp only [List.map_cons, List.cons.injEq] at h
          simp only [buildNodes, bucketNodeHashes, h.1, ih t2 h.2]

theorem ringFind_append (l1 l2 : List (Nat × BucketInfo)) (h : Nat) :
    ringFind (l1 ++ l2) h = (ringFind l1 h).or (ringFind l2 h) := by
  unfold ringFind
  rw [List.find?_append]
  cases List.find? (fun p => p.1 == h) l1 <;> simp

theorem ringFind_segment (hl : List Nat) (b : BucketInfo) (h : Nat) :
    ringFind (hl.map (fun x => (x, b))) h = if h ∈ hl then some b else none := by
  induction hl with
  | nil => simp [ringFind]
  | cons x t ih =>
      simp only [List.map_cons]
      by_cases hx : x = h
      · subst hx
        simp [ringFind, List.find?]
      · unfold ringFind at ih ⊢
        rw [List.find?_cons_of_neg _ (by simpa using hx)]
        rw [ih]
        by_cases hm : h ∈ t
        · rw [if_pos hm, if_pos (List.mem_cons_of_mem x hm)]
        · rw [if_neg hm, if_neg ?_]
          intro hcon
          rcases List.mem_cons.mp hcon with hcon | hcon
          · exact hx hcon.symm
          · exact hm hcon

theorem ringFind_name (r : Nat) :
    ∀ (bs1 bs2 : List BucketInfo),
      bs1.map (fun b => b.config.name) = bs2.map (fun b => b.config.name) →
      ∀ h : Nat,
        (ringFind (buildRing r bs1) h).map (fun b => b.config.name)
          = (ringFind (buildRing r bs2) h).map (fun b => b.config.name) := by
  intro bs1
  induction bs1 with
  | nil =>
      intro bs2 hn h
      cases bs2 with
      | nil => rfl
      | cons b2 t2 => simp at hn
  | cons b t ih =>
      intro bs2 hn h
      cases bs2 with
      | nil => simp at hn
      | cons b2 t2 =>
          simp only [List.map_cons, List.cons.injEq] at hn
          have hrec := ih t2 hn.2 h
          have hsplit1 : buildRing r (b :: t) = buildRing r t ++
              ((bucketNodeHashes r b.config.name).reverse.map (fun x => (x, b))) := rfl
          have hsplit2 : buildRing r (b2 :: t2) = buildRing r t2 ++
              ((bucketNodeHashes r b2.config.name).reverse.map (fun x => (x, b2))) := rfl
          rw [hsplit1, hsplit2, ringFind_append, ringFind_append]
          cases hX1 : ringFind (buildRing r t) h with
          | some p1 =>
              cases hX2 : ringFind (buildRing r t2) h with
              | some p2 =>
                  rw [hX1, hX2] at hrec
                  simpa using hrec
              | none => rw [hX1, hX2] at hrec; simp at hrec
          | none =>
              cases hX2 : ringFind (buildRing r t2) h with
              | some p2 => rw [hX1, hX2] at hrec; simp at hrec
              | none =>
                  simp only [Option.none_or]
                  rw [ringFind_segment, ringFind_segment, hn.1]
                  by_cases hmem : h ∈ (bucketNodeHashes r b2.config.name).reverse
                  · rw [if_pos hmem, if_pos hmem]
                    simp [hn.1]
                  · rw [if_neg hmem, if_neg hmem]

theorem ch_select_eq_of_find (s : ConsistentHashStrategy) (bs : List BucketInfo)
    (key : String) (hbs : bs.isEmpty = false) (v : Nat)
    (hfind : List.find? (fun x => decide (ConsistentHashStrategy.hash key ≤ x))
      (s.updateRing bs).nodes = some v) :
    ConsistentHashStrategy.SelectBucket s bs key =
      match ringFind (s.updateRing bs).ring v with
      | some b => .ok (b, s.updateRing bs)
      | none => .error .panicIndex := by
  simp only [ConsistentHashStrategy.SelectBucket, hbs, Bool.false_eq_true, if_false]
  rw [hfind]

theorem ch_select_eq_of_wrap (s : ConsistentHashStrategy) (bs : List BucketInfo)
    (key : String) (hbs : bs.isEmpty = false) (v : Nat) (tail : List Nat)
    (hfind : List.find? (fun x => decide (ConsistentHashStrategy.hash key ≤ x))
      (s.updateRing bs).nodes = none)
    (hnd : (s.updateRing bs).nodes = v :: tail) :
    ConsistentHashStrategy.SelectBucket s bs key =
      match ringFind (s.updateRing bs).ring v with
      | some b => .ok (b, s.updateRing bs)
      | none => .error .panicIndex := by
  simp only [ConsistentHashStrategy.SelectBucket, hbs, Bool.false_eq_true, if_false]
  rw [hfind, hnd]

/-- C5.  The consistent-hash strategy is deterministic across calls: for
two calls made in any two strategy states with the same virtual-node count
(every reachable state carries the `replicas = 100` set at construction)
and over two bucket slices with the same names in the same order, the same
key yields the same outcome — the same selected bucket name, or the same
error.  In particular two runs over a fixed bucket set agree. -/
theorem c5_consistent_hash_stable (s1 s2 : ConsistentHashStrategy)
    (bs1 bs2 : List BucketInfo) (key : String)
    (hrep : s1.replicas = s2.replicas)
    (hnames : bs1.map (fun b => b.config.name) = bs2.map (fun b => b.config.name)) :
    (ConsistentHashStrategy.SelectBucket s1 bs1 key).map (fun p => p.1.config.name)
      = (ConsistentHashStrategy.SelectBucket s2 bs2 key).map
          (fun p => p.1.config.name) := by
  have hlen : bs1.length = bs2.length := by
    have := congrArg List.length hnames
    simpa using this
  by_cases hbs : bs1.isEmpty
  · have h1 : bs1 = [] := List.isEmpty_iff.mp hbs
    have h2 : bs2 = [] := List.length_eq_zero.mp (by rw [← hlen, h1]; rfl)
    subst h1
    subst h2
    rfl
  · have hbne1 : bs1 ≠ [] := fun hc => hbs (by rw [hc]; rfl)
    have hbne2 : bs2 ≠ [] := by
      intro hc
      rw [hc] at hlen
      exact hbne1 (List.length_eq_zero.mp (by rw [hlen]; rfl))
    have hbs1 := isEmpty_false_of_ne_nil hbne1
    have hbs2 := isEmpty_false_of_ne_nil hbne2
    have hnodes : (s1.updateRing bs1).nodes = (s2.updateRing bs2).nodes := by
      rw [updateRing_nodes, updateRing_nodes, hrep, buildNodes_names _ bs1 bs2 hnames]
    have hring : ∀ v : Nat,
        (ringFind (s1.updateRing bs1).ring v).map (fun b => b.config.name)
          = (ringFind (s2.updateRing bs2).ring v).map (fun b => b.config.name) := by
      intro v
      rw [updateRing_ring, updateRing_ring, hrep]
      exact ringFind_name s2.replicas bs1 bs2 hnames v
    cases hfind : List.find? (fun x => decide (ConsistentHashStrategy.hash key ≤ x))
        (s2.updateRing bs2).nodes with
    | some v =>
        have e1 := ch_select_eq_of_find s1 bs1 key hbs1 v (by rw [hnodes]; exact hfind)
        have e2 := ch_select_eq_of_find s2 bs2 key hbs2 v hfind
        have hr := hring v
        rw [e1, e2]
        cases h1 : ringFind (s1.updateRing bs1).ring v with
        | some p1 =>
            cases h2 : ringFind (s2.updateRing bs2).ring v with
            | some p2 =>
                rw [h1, h2] at hr
                simp only [Option.map] at hr
                injection hr with hr
                simp [Except.map, hr]
            | none => rw [h1, h2] at hr; simp at hr
        | none =>
            cases h2 : ringFind (s2.updateRing bs2).ring v with
            | some p2 => rw [h1, h2] at hr; simp at hr
            | none => simp [Except.map]
    | none =>
        cases hnd : (s2.updateRing bs2).nodes with
        | nil =>
            have e1 : ConsistentHashStrategy.SelectBucket s1 bs1 key =
                .error .panicIndex := by
              simp only [ConsistentHashStrategy.SelectBucket, hbs1,
                Bool.false_eq_true, if_false]
              rw [hnodes, hfind, hnd]
            have e2 : ConsistentHashStrategy.SelectBucket s2 bs2 key =
                .error .panicIndex := by
              simp only [ConsistentHashStrategy.SelectBucket, hbs2,
                Bool.false_eq_true, if_false]
              rw [hfind, hnd]
            rw [e1, e2]
        | cons v tail =>
            have e1 := ch_select_eq_of_wrap s1 bs1 key hbs1 v tail
              (by rw [hnodes]; exact hfind) (by rw [hnodes]; exact hnd)
            have e2 := ch_select_eq_of_wrap s2 bs2 key hbs2 v tail hfind hnd
            have hr := hring v
            rw [e1, e2]
            cases h1 : ringFind (s1.updateRing bs1).ring v with
            | some p1 =>
                cases h2 : ringFind (s2.updateRing bs2).ring v with
                | some p2 =>
                    rw [h1, h2] at hr
                    simp only [Option.map] at hr
                    injection hr with hr
                    simp [Except.map, hr]
                | none => rw [h1, h2] at hr; simp at hr
            | none =>
                cases h2 : ringFind (s2.updateRing bs2).ring v with
                | some p2 => rw [h1, h2] at hr; simp at hr
                | none => simp [Except.map]

/-- Witness for C5 at a concrete input: a fresh strategy state and the
state left behind by a previous call agree on the same slice and key. -/
theorem c5_consistent_hash_stable_witness :
    NewConsistentHashStrategy.replicas =
      (NewConsistentHashStrategy.updateRing [chBucketA]).replicas ∧
    (ConsistentHashStrategy.SelectBucket NewConsistentHashStrategy [chBucketA]
        "user/42/avatar.png").map (fun p => p.1.config.name)
      = (ConsistentHashStrategy.SelectBucket
          (NewConsistentHashStrategy.updateRing [chBucketA]) [chBucketA]
          "user/42/avatar.png").map (fun p => p.1.config.name) :=
  ⟨rfl, c5_consistent_hash_stable NewConsistentHashStrategy
    (NewConsistentHashStrategy.updateRing [chBucketA]) [chBucketA] [chBucketA]
    "user/42/avatar.png" rfl rfl⟩

/-! ## C6 — the consistent-hash ring after a rebuild -/

theorem buildRing_key_mem {r : Nat} :
    ∀ {bs : List BucketInfo} {p : Nat × BucketInfo},
      p ∈ buildRing r bs → p.1 ∈ buildNodes r bs := by
  intro bs
  induction bs with
  | nil => intro p h; simp [buildRing] at h
  | cons b0 t ih =>
      intro p h
      simp only [buildRing] at h
      simp only [buildNodes, List.mem_append]
      rcases List.mem_append.mp h with h | h
      · exact Or.inr (ih h)
      · obtain ⟨x, hx, hfx⟩ := List.mem_map.mp h
        refine Or.inl ?_
        rw [← hfx]
        exact List.mem_reverse.mp hx

theorem mem_bucketNodeHashes {r : Nat} (name : String) {i : Nat} (hi : i < r) :
    ConsistentHashStrategy.hash (virtualKey name i) ∈ bucketNodeHashes r name :=
  List.mem_map.mpr ⟨i, List.mem_range.mpr hi, rfl⟩

/-- Under pairwise-distinct node hashes, the ring maps each of a bucket's
points back to that bucket. -/
theorem ringFind_lookup_back (r : Nat) :
    ∀ (bs : List BucketInfo), (buildNodes r bs).Nodup →
      ∀ b ∈ bs, ∀ i, i < r →
        ringFind (buildRing r bs)
          (ConsistentHashStrategy.hash (virtualKey b.config.name i)) = some b := by
  intro bs
  induction bs with
  | nil => intro _ b hb; cases hb
  | cons b0 t ih =>
      intro hnod b hb i hi
      have hsplitN : buildNodes r (b0 :: t) =
          bucketNodeHashes r b0.config.name ++ buildNodes r t := rfl
      rw [hsplitN] at hnod
      obtain ⟨hn1, hn2, hdisj⟩ := List.nodup_append.mp hnod
      have hsplitR : buildRing r (b0 :: t) = buildRing r t ++
          ((bucketNodeHashes r b0.config.name).reverse.map (fun x => (x, b0))) := rfl
      rw [hsplitR, ringFind_append]
      rcases List.mem_cons.mp hb with rfl | hbt
      · have hmemH : ConsistentHashStrategy.hash (virtualKey b.config.name i) ∈
            bucketNodeHashes r b.config.name := mem_bucketNodeHashes _ hi
        have hfirst : ringFind (buildRing r t)
            (ConsistentHashStrategy.hash (virtualKey b.config.name i)) = none := by
          unfold ringFind
          rw [List.find?_eq_none.mpr ?_]
          · rfl
          · intro p hp hbeq
            have hpk := buildRing_key_mem hp
            have hpe : p.1 = ConsistentHashStrategy.hash (virtualKey b.config.name i) := by
              simpa using hbeq
            exact hdisj hmemH (hpe ▸ hpk)
        rw [hfirst, Option.none_or, ringFind_segment,
          if_pos (List.mem_reverse.mpr hmemH)]
      · have hrec := ih hn2 b hbt i hi
        rw [hrec]
        rfl

/-- In a two-bucket ring, any hash that is among the second bucket's
points looks up to the second bucket: its map assignments came last. -/
theorem ringFind_two_buckets (r : Nat) (x y : BucketInfo) {h : Nat}
    (hm : h ∈ bucketNodeHashes r y.config.name) :
    ringFind (buildRing r [x, y]) h = some y := by
  have hsplit : buildRing r [x, y] = buildRing r [y] ++
      ((bucketNodeHashes r x.config.name).reverse.map (fun k => (k, x))) := rfl
  have hsplit2 : buildRing r [y] =
      ((bucketNodeHashes r y.config.name).reverse.map (fun k => (k, y))) := by
    show buildRing r [] ++ _ = _
    simp [buildRing]
  rw [hsplit, ringFind_append, hsplit2, ringFind_segment,
    if_pos (List.mem_reverse.mpr hm)]
  rfl

/-- C6 counterexample.  The 32-bit point hash genuinely collides:
`"b5-50"` and `"b617-35"` both hash to `3851986694`.  With buckets named
`b5` and `b617`, the ring maps bucket `b5`'s virtual point 50 to bucket
`b617` (the later map assignment overwrote the earlier one), so ring
lookup does not map each of a bucket's points back to that bucket. -/
theorem c6_ring_lookup_counterexample :
    colBucket5 ∈ colBuckets ∧ (50 : Nat) < 100 ∧
    ConsistentHashStrategy.hash (virtualKey "b5" 50)
      = ConsistentHashStrategy.hash (virtualKey "b617" 35) ∧
    ringFind (NewConsistentHashStrategy.updateRing colBuckets).ring
        (ConsistentHashStrategy.hash (virtualKey colBucket5.config.name 50))
      = some colBucket617 ∧
    ¬ (∀ b ∈ colBuckets, ∀ i, i < 100 →
        ringFind (NewConsistentHashStrategy.updateRing colBuckets).ring
          (ConsistentHashStrategy.hash (virtualKey b.config.name i)) = some b) := by
  have hcol : ConsistentHashStrategy.hash (virtualKey "b5" 50)
      = ConsistentHashStrategy.hash (virtualKey "b617" 35) := by decide
  have hm : ConsistentHashStrategy.hash (virtualKey colBucket5.config.name 50) ∈
      bucketNodeHashes 100 colBucket617.config.name := by
    show ConsistentHashStrategy.hash (virtualKey "b5" 50) ∈ bucketNodeHashes 100 "b617"
    rw [hcol]
    exact mem_bucketNodeHashes "b617" (by omega)
  have hlook : ringFind (NewConsistentHashStrategy.updateRing colBuckets).ring
      (ConsistentHashStrategy.hash (virtualKey colBucket5.config.name 50))
      = some colBucket617 := by
    rw [updateRing_ring]
    exact ringFind_two_buckets 100 colBucket5 colBucket617 hm
  have hne : colBucket5 ≠ colBucket617 := by
    intro hcon
    have := congrArg (fun b => b.config.name) hcon
    simp [colBucket5, colBucket617] at this
  refine ⟨List.mem_cons_self _ _, by omega, hcol, hlook, ?_⟩
  intro hall
  have h5 := hall colBucket5 (List.mem_cons_self _ _) 50 (by omega)
  rw [h5] at hlook
  exact hne (by injection hlook)

/-- C6, amended.  After the ring is rebuilt from a bucket list — by a
strategy with any virtual-node count, in particular the constructed
strategy's `replicas = 100` — the node sequence is, unconditionally,
sorted non-decreasing, `replicas × n` points long, and as a multiset
equal to the virtual-node hashes, each bucket contributing exactly
`replicas` points, the point for `(name, i)` being the big-endian high 32
bits of `MD5("<name>-<i>")`; and provided those hashes are pairwise
distinct (no 32-bit MD5 collision among the virtual keys, which also
forces the names to be distinct), ring lookup maps each of a bucket's
points back to that bucket. -/
theorem c6_ring_invariants (s : ConsistentHashStrategy) (bs : List BucketInfo) :
    NewConsistentHashStrategy.replicas = 100 ∧
    (s.updateRing bs).nodes.Sorted (· ≤ ·) ∧
    (s.updateRing bs).nodes.length = s.replicas * bs.length ∧
    (s.updateRing bs).nodes.Perm (buildNodes s.replicas bs) ∧
    ((buildNodes s.replicas bs).Nodup →
      ∀ b ∈ bs, ∀ i, i < s.replicas →
        ringFind (s.updateRing bs).ring
          (ConsistentHashStrategy.hash (virtualKey b.config.name i)) = some b) := by
  refine ⟨rfl, ?_, ?_, ?_, ?_⟩
  · rw [updateRing_nodes]
    exact List.sorted_insertionSort _ _
  · rw [updateRing_nodes]
    rw [(List.perm_insertionSort (fun a b : Nat => a ≤ b) _).length_eq]
    exact buildNodes_length s.replicas bs
  · rw [updateRing_nodes]
    exact List.perm_insertionSort _ _
  · intro hcol b hb i hi
    rw [updateRing_ring]
    exact ringFind_lookup_back s.replicas bs hcol b hb i hi

/-- Witness for the amended C6 at a concrete input: one bucket named
`"a"` under a strategy state with two virtual nodes per bucket, whose
point hashes are distinct, so the lookup-back implication is discharged. -/
theorem c6_ring_invariants_witness :
    (buildNodes chStrategy2.replicas [chBucketA]).Nodup ∧
    NewConsistentHashStrategy.replicas = 100 ∧
    (chStrategy2.updateRing [chBucketA]).nodes.Sorted (· ≤ ·) ∧
    (chStrategy2.updateRing [chBucketA]).nodes.length
      = chStrategy2.replicas * ([chBucketA] : List BucketInfo).length ∧
    (chStrategy2.updateRing [chBucketA]).nodes.Perm
      (buildNodes chStrategy2.replicas [chBucketA]) ∧
    ∀ b ∈ ([chBucketA] : List BucketInfo), ∀ i, i < chStrategy2.replicas →
      ringFind (chStrategy2.updateRing [chBucketA]).ring
        (ConsistentHashStrategy.hash (virtualKey b.config.name i)) = some b := by
  have hlist : buildNodes chStrategy2.replicas [chBucketA]
      = [2707812305, 1937512730] := by decide
  have hnodup : (buildNodes chStrategy2.replicas [chBucketA]).Nodup := by
    rw [hlist]
    decide
  have hmain := c6_ring_invariants chStrategy2 [chBucketA]
  exact ⟨hnodup, hmain.1, hmain.2.1, hmain.2.2.1, hmain.2.2.2.1,
    hmain.2.2.2.2 hnodup⟩


